import Mathlib

/-!
# Verification of the ApeCrunch expression core

A shallow embedding of the ApeCrunch calculator's expression pipeline:
the `Number` engine over big rationals (`src/number.rs`), the token
parser (`src/parser.rs`), the evaluator (`src/op_engine.rs`), the
variable table (`src/variable.rs`) and the session lookups it needs
(`src/session.rs`).  Strings are embedded as `List Char` (the sources
only ever index at ASCII positions, where byte and char indices agree),
machine integers as `Nat`/`Int`, fallible code as `Except`, and panics
as a distinguished error constructor.  Loops that are not structurally
recursive in the source (the Newton iteration in `Number::root`, the
recursive descent of `parse`, the evaluator's answer indirection) take
an explicit fuel argument; fuel exhaustion is a distinguished outcome
that is never conflated with an error or panic of the source program.
-/

/-- Reduced-fraction carrier mirroring `fraction::Ratio` plus the separate
sign kept by `GenericFraction`: we fold the sign into an `Int` numerator,
and keep the magnitude denominator as a `Nat`.  All values produced by the
operations below are reduced with positive denominator, matching the
crate's `Ratio::new` normalisation. -/
structure Q where
  num : Int
  den : Nat
deriving DecidableEq, Repr

/-- Build a reduced fraction from an integer numerator and natural
denominator, as `Ratio::new` does (divide both by their gcd).  A zero
denominator cannot be produced by the embedded operations (division
checks for zero first, mirroring `GenericFraction`); the `d = 0` arm is
a junk value that keeps the function total. -/
def mkQ (n : Int) (d : Nat) : Q :=
  if d = 0 then ⟨n, 0⟩
  else
    let g := Nat.gcd n.natAbs d
    if n < 0 then ⟨-((n.natAbs / g : Nat) : Int), d / g⟩
    else ⟨((n.natAbs / g : Nat) : Int), d / g⟩

/-- `GenericFraction`: a big rational together with the crate's two
sentinel states `Infinity` (with a sign, `true` meaning negative) and
`NaN`. -/
inductive BigFraction
  | nan
  | inf (neg : Bool)
  | rat (q : Q)
deriving DecidableEq, Repr

namespace BigFraction

def zero : BigFraction := .rat ⟨0, 1⟩

def one : BigFraction := .rat ⟨1, 1⟩

def two : BigFraction := .rat ⟨2, 1⟩

/-- `Signed::is_negative` of the crate: negative rationals and negative
infinity. -/
def isNeg : BigFraction → Bool
  | .nan => false
  | .inf s => s
  | .rat q => q.num < 0

/-- Crate addition: `NaN` is absorbing, infinities of equal sign add to
themselves, of opposite signs to `NaN`; rational addition is exact. -/
def add : BigFraction → BigFraction → BigFraction
  | .nan, _ => .nan
  | _, .nan => .nan
  | .inf s, .inf t => if s = t then .inf s else .nan
  | .inf s, .rat _ => .inf s
  | .rat _, .inf s => .inf s
  | .rat a, .rat b => .rat (mkQ (a.num * (b.den : Int) + b.num * (a.den : Int)) (a.den * b.den))

/-- Crate subtraction, with the IEEE-style sentinel rules the crate
follows (`∞ − ∞ = NaN`, `x − ∞ = −∞`, …). -/
def sub : BigFraction → BigFraction → BigFraction
  | .nan, _ => .nan
  | _, .nan => .nan
  | .inf s, .inf t => if s = t then .nan else .inf s
  | .inf s, .rat _ => .inf s
  | .rat _, .inf s => .inf (!s)
  | .rat a, .rat b => .rat (mkQ (a.num * (b.den : Int) - b.num * (a.den : Int)) (a.den * b.den))

/-- Crate multiplication.  `∞ · 0` is `NaN` (float-like), other products
with infinity keep the product of the signs. -/
def mul : BigFraction → BigFraction → BigFraction
  | .nan, _ => .nan
  | _, .nan => .nan
  | .inf s, .inf t => .inf (s != t)
  | .inf s, .rat q => if q.num = 0 then .nan else .inf (s != decide (q.num < 0))
  | .rat q, .inf s => if q.num = 0 then .nan else .inf (s != decide (q.num < 0))
  | .rat a, .rat b => .rat (mkQ (a.num * b.num) (a.den * b.den))

/-- Crate division: dividing a nonzero rational by the exact zero gives
a signed infinity, `0 / 0` gives `NaN`, a rational divided by infinity
gives `0`, `∞ / ∞` gives `NaN`. -/
def div : BigFraction → BigFraction → BigFraction
  | .nan, _ => .nan
  | _, .nan => .nan
  | .inf s, .inf t => if s = t then .nan else .nan
  | .inf s, .rat q => .inf (s != decide (q.num < 0))
  | .rat _, .inf _ => .rat ⟨0, 1⟩
  | .rat a, .rat b =>
      if b.num = 0 then
        if a.num = 0 then .nan else .inf (decide (a.num < 0))
      else if b.num < 0 then .rat (mkQ (-(a.num * (b.den : Int))) (a.den * b.num.natAbs))
      else .rat (mkQ (a.num * (b.den : Int)) (a.den * b.num.natAbs))

/-- Crate absolute value. -/
def abs : BigFraction → BigFraction
  | .nan => .nan
  | .inf _ => .inf false
  | .rat q => .rat ⟨(q.num.natAbs : Int), q.den⟩

/-- The crate's `PartialOrd::ge` as used by `Number::root`'s loop guard
`&last_move >= &min_move`: comparisons against `NaN` are false (the
crate follows float comparison semantics); infinities compare in the
expected way; rationals compare by cross-multiplication. -/
def ge : BigFraction → BigFraction → Bool
  | .nan, _ => false
  | _, .nan => false
  | .inf s, .inf t => (!s) || t
  | .inf s, .rat _ => !s
  | .rat _, .inf s => s
  | .rat a, .rat b => decide (b.num * (a.den : Int) ≤ a.num * (b.den : Int))

/-- `numer()` of the crate returns the magnitude numerator, and is `None`
on the sentinels (the sources always `unwrap` it, so a sentinel argument
is a panic). -/
def numerMag : BigFraction → Option Nat
  | .rat q => some q.num.natAbs
  | _ => none

/-- `denom()` of the crate: magnitude denominator, `None` on sentinels. -/
def denomMag : BigFraction → Option Nat
  | .rat q => some q.den
  | _ => none

end BigFraction

deriving instance DecidableEq for Except

/-- Failure modes of the embedded `Number` power/root engine: `panic`
models a Rust panic (an `unwrap` of `None`), `fuel` is the embedding's
fuel exhaustion (not a behaviour of the source). -/
inductive NFail
  | panic
  | fuel
deriving DecidableEq, Repr

/-- `src/number.rs` `Number`: a newtype over `BigFraction`. -/
structure Number where
  fraction : BigFraction
deriving DecidableEq, Repr

namespace Number

/-- `Number::from_str` restricted to decimal literals (see
`parseDecimal` below, which models `BigFraction::from_str` on the
decimal-literal grammar). -/
def neg_one : Number := ⟨.rat ⟨-1, 1⟩⟩

/-- `Number::negative`: multiply by `-1`. -/
def negative (x : Number) : Number := ⟨BigFraction.mul (.rat ⟨-1, 1⟩) x.fraction⟩

/-- `Number::add`. -/
def add (x y : Number) : Number := ⟨x.fraction.add y.fraction⟩

/-- `Number::subtract`. -/
def subtract (x y : Number) : Number := ⟨x.fraction.sub y.fraction⟩

/-- `Number::multiply`. -/
def multiply (x y : Number) : Number := ⟨x.fraction.mul y.fraction⟩

/-- `Number::divide`. -/
def divide (x y : Number) : Number := ⟨x.fraction.div y.fraction⟩

/-- The repeated-multiplication loop of `Number::pow`:
`while i > 1 { result = num * result; i -= 1 }` starting from
`result = num`.  For `i = 0` and `i = 1` the loop body never runs and
the base is returned unchanged. -/
def powLoop (num : BigFraction) : Nat → BigFraction
  | 0 => num
  | 1 => num
  | n + 2 => num.mul (powLoop num (n + 1))

/-- Private `Number::pow`: sentinels pass through; otherwise the
magnitude numerator of `pw` drives the multiplication loop
(`pw.numer().unwrap()` panics if `pw` is a sentinel), and a negative
power takes the reciprocal at the end. -/
def pow (num pw : BigFraction) : Except NFail BigFraction :=
  match num with
  | .nan => .ok .nan
  | .inf s => .ok (.inf s)
  | .rat q =>
      match pw.numerMag with
      | none => .error .panic
      | some i =>
          let result := powLoop (.rat q) i
          .ok (if pw.isNeg then BigFraction.one.div result else result)

/-- `Number::round_denom`: divide numerator and denominator by
`old_den / target_den` when that quotient is positive.  Note the source
rebuilds the fraction through `BigFraction::new` from the *magnitude*
numerator, so the sign of a negative fraction is dropped here; that
quirk is mirrored.  `denom().unwrap()` panics on sentinels. -/
def round_denom (x : BigFraction) (den : Nat) : Except NFail BigFraction :=
  match x with
  | .rat q =>
      let divisor := q.den / den
      if 0 < divisor then .ok (.rat (mkQ ((q.num.natAbs / divisor : Nat) : Int) den))
      else .ok (.rat q)
  | _ => .error .panic

/-- The Newton iteration loop of `Number::root`:
`while last_move >= min_move { round; step; measure }`, with an explicit
fuel bound on the number of iterations. -/
def rootLoop : Nat → BigFraction → BigFraction → BigFraction → BigFraction →
    BigFraction → Nat → BigFraction → Except NFail BigFraction
  | 0, _, _, _, _, _, _, _ => .error .fuel
  | f + 1, x, lastMove, a, rt, lroot, precWorking, minMove =>
      if lastMove.ge minMove then
        match round_denom x precWorking with
        | .error e => .error e
        | .ok x1 =>
            match pow x1 rt with
            | .error e => .error e
            | .ok pr =>
                match pow x1 lroot with
                | .error e => .error e
                | .ok pl =>
                    let x2 := x1.sub ((pr.sub a).div (rt.mul pl))
                    rootLoop f x2 ((x2.sub x1).abs) a rt lroot precWorking minMove
      else .ok x

/-- Combined interpreter for the mutually recursive pair
`Number::exponent` (tag `true`) and `Number::root` (tag `false`),
structurally recursive on a fuel that decreases on each cross call.
The source functions call each other only with integer arguments for
the inner call, so any concrete run needs constant depth. -/
def engine : Nat → Bool → BigFraction → BigFraction → Nat → Except NFail BigFraction
  | 0, _, _, _, _ => .error .fuel
  | f + 1, true, x, e, prec =>
      -- Number::exponent: sentinels pass through, then pow, then a root
      -- when the exponent's denominator is not 1.
      match x with
      | .nan => .ok .nan
      | .inf s => .ok (.inf s)
      | .rat q =>
          match pow (.rat q) e with
          | .error er => .error er
          | .ok result =>
              match e.denomMag with
              | none => .error .panic
              | some root =>
                  if root = 1 then .ok result
                  else engine f false result (.rat ⟨(root : Int), 1⟩) prec
  | f + 1, false, self, root, prec =>
      -- Number::root: sentinels pass through, negative input gives NaN,
      -- then Newton iteration, final rounding, reciprocal for a negative
      -- root, and an exponentiation when the root's denominator is not 1.
      match self with
      | .nan => .ok .nan
      | .inf s => .ok (.inf s)
      | .rat q =>
          if q.num < 0 then .ok .nan
          else
            let precWorking := 10 ^ (prec + 3)
            let minMove : BigFraction := .rat (mkQ 1 (10 ^ (prec + 2)))
            let precFinal := 10 ^ (prec + 1)
            match root.numerMag with
            | none => .error .panic
            | some rtN =>
                let rt : BigFraction := .rat ⟨(rtN : Int), 1⟩
                let lroot := rt.sub BigFraction.one
                let x0 := (BigFraction.rat q).div BigFraction.two
                match rootLoop (f + 1) x0 BigFraction.one (.rat q) rt lroot
                    precWorking minMove with
                | .error er => .error er
                | .ok xl =>
                    match round_denom xl precFinal with
                    | .error er => .error er
                    | .ok xr =>
                        let result := if root.isNeg then BigFraction.one.div xr else xr
                        match root.denomMag with
                        | none => .error .panic
                        | some expd =>
                            if expd = 1 then .ok result
                            else engine f true result (.rat ⟨(expd : Int), 1⟩) prec

/-- `Number::exponent` with explicit fuel. -/
def exponent (fuel : Nat) (x e : Number) (prec : Nat) : Except NFail Number :=
  (engine fuel true x.fraction e.fraction prec).map Number.mk

/-- `Number::root` with explicit fuel for the Newton loop. -/
def root (fuel : Nat) (self rt : Number) (prec : Nat) : Except NFail Number :=
  (engine fuel false self.fraction rt.fraction prec).map Number.mk

end Number

-- Basic sanity checks of the embedded arithmetic.
example : BigFraction.add (.rat ⟨1, 2⟩) (.rat ⟨1, 3⟩) = .rat ⟨5, 6⟩ := by decide
example : BigFraction.div (.rat ⟨1, 1⟩) (.rat ⟨0, 1⟩) = .inf false := by decide
example : Number.powLoop (.rat ⟨5, 1⟩) 3 = .rat ⟨125, 1⟩ := by decide
example : Number.exponent 5 ⟨.rat ⟨5, 1⟩⟩ ⟨.rat ⟨13, 1⟩⟩ 13 = .ok ⟨.rat ⟨1220703125, 1⟩⟩ := by decide

/-! ## Decimal literals: `BigFraction::from_str` and `Display` with precision -/

/-- The decimal digit character for a digit value below ten. -/
def digitChar (n : Nat) : Char := Char.ofNat (48 + n)

/-- Numeric value of a digit string, most significant digit first (the
accumulator form used by any decimal parser). -/
def digitsToNat (s : List Char) : Nat :=
  s.foldl (fun a c => 10 * a + (c.toNat - 48)) 0

/-- Decimal digits of a natural number, most significant first.  The
first argument is fuel; any fuel larger than the number of digits is
enough, and callers pass `n + 1`. -/
def natToDigits : Nat → Nat → List Char
  | 0, _ => []
  | f + 1, n => if n < 10 then [digitChar n] else natToDigits f (n / 10) ++ [digitChar (n % 10)]

/-- Nonnegative decimal literal: digits, optionally followed by a dot
and more digits.  Models `BigFraction::from_str` on that grammar (the
crate builds the numerator from all digits and divides by the power of
ten given by the fractional length, reducing the result). -/
def parsePosDecimal (s : List Char) : Option Q :=
  if (s.takeWhile Char.isDigit).isEmpty then none
  else
    match s.drop (s.takeWhile Char.isDigit).length with
    | [] => some (mkQ (digitsToNat (s.takeWhile Char.isDigit) : Int) 1)
    | '.' :: fp =>
        if fp.isEmpty then none
        else if fp.all Char.isDigit then
          some (mkQ ((digitsToNat (s.takeWhile Char.isDigit) * 10 ^ fp.length +
            digitsToNat fp : Nat) : Int) (10 ^ fp.length))
        else none
    | _ => none

/-- Decimal literal with optional leading minus sign. -/
def parseDecimal : List Char → Option Q
  | '-' :: rest => (parsePosDecimal rest).map (fun q => ⟨-q.num, q.den⟩)
  | s => parsePosDecimal s

/-- The fractional-digit loop of the crate's `Display` with a precision:
emit digits of `r / den` until the remainder is zero or `prec` digits
have been produced (truncation, no rounding, no trailing-zero padding —
pinned by the repository's own tests, e.g. `2 + 2` rendering as `4` at
six decimal places). -/
def fracDigits : Nat → Nat → Nat → List Char
  | 0, _, _ => []
  | p + 1, r, den => if r = 0 then [] else digitChar (10 * r / den) :: fracDigits p (10 * r % den) den

/-- `format!("{num:.prec$}")` of a `BigFraction`: sign, integer part,
then up to `prec` fractional digits.  Sentinels render as their display
forms (not exercised by any claim). -/
def bigFractionRender (x : BigFraction) (prec : Nat) : List Char :=
  match x with
  | .nan => "NaN".toList
  | .inf s => if s then "-∞".toList else "∞".toList
  | .rat q =>
      let m := q.num.natAbs
      let ip := m / q.den
      let fr := fracDigits prec (m % q.den) q.den
      (if q.num < 0 then ['-'] else []) ++ natToDigits (ip + 1) ip ++
        (if fr.isEmpty then [] else '.' :: fr)

/-- `Number::to_string`: render at the requested precision, reparse the
rendering and compare with the exact value (`BigFraction::from_str` of
the base string), appending `"..."` when they differ, i.e. when the
rendering lost precision.  The reparse of a rendered rational cannot
fail; the `none` arm mirrors the source's `unwrap` and is unreachable. -/
def Number.to_string (n : Number) (prec : Nat) : List Char :=
  match n.fraction with
  | .rat q =>
      let base := bigFractionRender (.rat q) prec
      match parseDecimal base with
      | some q2 => if q2 = q then base else base ++ "...".toList
      | none => "PANIC".toList
  | x => bigFractionRender x prec

example : Number.to_string ⟨.rat ⟨4, 1⟩⟩ 6 = "4".toList := by decide
example : Number.to_string ⟨.rat ⟨-3, 2⟩⟩ 6 = "-1.5".toList := by decide
example : Number.to_string ⟨.rat ⟨2, 3⟩⟩ 3 = "0.666...".toList := by decide
example : Number.to_string ⟨.rat ⟨1, 2⟩⟩ 0 = "0...".toList := by decide
example : parseDecimal "1.10".toList = some ⟨11, 10⟩ := by decide

/-! ## Tokens, variables, variable table, session -/

/-- `parser::Token`.  The `Variable` variant is flattened to its two
fields (identifier and value snapshot), which preserves the structural
equality the source derives. -/
inductive Token
  | exponent (l r : Token)
  | multiply (l r : Token)
  | divide (l r : Token)
  | add (l r : Token)
  | subtract (l r : Token)
  | equality (l r : Token)
  | parenthesis (e : Token)
  | answer (uuid : Nat)
  | number (n : Number)
  | variable' (id : List Char) (tokens : Token)
  | negative (e : Token)
  | boolean (b : Bool)
  | store (id : List Char) (e : Token)
deriving DecidableEq, Repr

/-- `variable::Variable`: an identifier bound to a token tree. -/
structure Variable where
  id : List Char
  tokens : Token
deriving DecidableEq, Repr

/-- `variable::VarTable`: a vector of variables, kept sorted by
identifier by its operations (the source field is named `variables`,
which is a reserved word here). -/
structure VarTable where
  vars : List Variable
deriving DecidableEq, Repr

/-- Rust's `str::cmp`: lexicographic byte order (for ASCII identifiers,
codepoint order over the chars coincides with byte order). -/
def strCmp : List Char → List Char → Ordering
  | [], [] => .eq
  | [], _ :: _ => .lt
  | _ :: _, [] => .gt
  | a :: as', b :: bs' =>
      if a.toNat < b.toNat then .lt
      else if b.toNat < a.toNat then .gt
      else strCmp as' bs'

/-- The result of `slice::binary_search_by` on a list sorted by
`strCmp` on identifiers, per that function's contract: `.inl i` when the
element at `i` compares equal to the target, `.inr i` for the insertion
point otherwise.  (On a sorted slice the contract determines the result
uniquely, so a linear computation of it is an exact model.) -/
def searchVar : List Variable → List Char → Sum Nat Nat
  | [], _ => .inr 0
  | v :: rest, id =>
      match strCmp v.id id with
      | .eq => .inl 0
      | .gt => .inr 0
      | .lt =>
          match searchVar rest id with
          | .inl i => .inl (i + 1)
          | .inr i => .inr (i + 1)

namespace VarTable

/-- `VarTable::new`. -/
def new : VarTable := ⟨[]⟩

/-- `VarTable::add`: insert at the sorted position, failing when the
identifier is already present. -/
def add (t : VarTable) (v : Variable) : Except Unit VarTable :=
  match searchVar t.vars v.id with
  | .inl _ => .error ()
  | .inr i => .ok ⟨t.vars.insertIdx i v⟩

/-- `VarTable::remove`: remove an exact match, failing when absent. -/
def remove (t : VarTable) (id : List Char) : Except Unit VarTable :=
  match searchVar t.vars id with
  | .inl i => .ok ⟨t.vars.eraseIdx i⟩
  | .inr _ => .error ()

/-- `VarTable::store`: replace in place when present, insert at the
sorted position otherwise.  The source returns `Result` but never an
error. -/
def store (t : VarTable) (v : Variable) : VarTable :=
  match searchVar t.vars v.id with
  | .inl i => ⟨t.vars.set i v⟩
  | .inr i => ⟨t.vars.insertIdx i v⟩

/-- `VarTable::get`: clone out an exact match, failing when absent. -/
def get (t : VarTable) (id : List Char) : Except Unit Variable :=
  match searchVar t.vars id with
  | .inl i => match t.vars.get? i with
    | some v => .ok v
    | none => .error ()
  | .inr _ => .error ()

/-- `VarTable::merge`: store every variable of the other table. -/
def merge (t other : VarTable) : VarTable :=
  other.vars.foldl store t

end VarTable

/-- `session::HistoryEntry` (uuid modelled as `Nat`). -/
structure HistoryEntry where
  entry_uuid : Nat
  expression : Token
  rendition : List Char
deriving DecidableEq, Repr

/-- The slice of `session::Session` the parser and evaluator read:
rendering precision, variable table, current and previous history
entries. -/
structure Session where
  decimal_places : Nat
  vartable : VarTable
  entries : List HistoryEntry
  previous_entries : List HistoryEntry
deriving DecidableEq, Repr

/-- `Session::get_entry_inv_index`: look an entry up by its inverse
index across the current entries and, beyond them, the previous-session
entries. -/
def Session.get_entry_inv_index (s : Session) (inv : Nat) : Option HistoryEntry :=
  if s.previous_entries.length + s.entries.length ≤ inv then none
  else
    let inv1 := inv + 1
    if s.entries.length < inv1 then
      s.previous_entries.get? (s.previous_entries.length - (inv1 - s.entries.length))
    else
      s.entries.get? (s.entries.length - inv1)

/-- `Session::get_inv_index_from_uuid`.  The previous-entries branch
computes `previous.len() - (index - 1 - entries.len())` in unsigned
arithmetic, so it panics (modelled as `.error ()`) whenever the found
position makes either subtraction underflow. -/
def Session.get_inv_index_from_uuid (s : Session) (uuid : Nat) : Except Unit (Option Nat) :=
  match s.entries.findIdx? (fun e => e.entry_uuid = uuid) with
  | some i => .ok (some (s.entries.length - i - 1))
  | none =>
      match s.previous_entries.findIdx? (fun e => e.entry_uuid = uuid) with
      | some i =>
          if i < 1 + s.entries.length then .error ()
          else
            let b := i - 1 - s.entries.length
            if s.previous_entries.length < b then .error ()
            else .ok (some (s.previous_entries.length - b))
      | none => .ok none

/-- `Session::get_entry_from_uuid`: search the current then the previous
entries.  When the uuid is in neither list the source hits `todo!()`,
i.e. it panics instead of returning `None`; the panic is modelled as
`.error ()` and the `Option` in the result mirrors the Rust signature
(`.ok none` is never produced). -/
def Session.get_entry_from_uuid (s : Session) (uuid : Nat) : Except Unit (Option HistoryEntry) :=
  match s.entries.find? (fun e => e.entry_uuid = uuid) with
  | some e => .ok (some e)
  | none =>
      match s.previous_entries.find? (fun e => e.entry_uuid = uuid) with
      | some e => .ok (some e)
      | none => .error ()

/-- Modelled from the spec: `HistoryEntry::without_equality`, called by
the evaluator's answer case but absent from the sources (only its
sibling `render_without_equality` survives there).  Per §6 of the spec
it returns the entry's expression with any outer `Equality` wrapper
stripped to its left-hand side, exactly as `render_without_equality`
does for rendering. -/
def HistoryEntry.without_equality (e : HistoryEntry) : Token :=
  match e.expression with
  | .equality l _ => l
  | t => t

/-! ## The parser: `parser::match_outside_parenthesis` and `parser::parse` -/

/-- Parse errors, one constructor per `bail!` site of `parser.rs` (plus
`panicked` for the source's reachable panics and `fuelOut` for the
embedding's fuel artifact):
`emptyExpr` = "Empty Expression", `incomplete` = "Incomplete
Expression", `unclosedParen` = "Forgot to close parenthesis",
`extraParen` = "Too many closing parenthesis", `invalidVarName` =
"Invalid variable name", `invalidAnswer` = "Invalid answer",
`answerIndexErr` = the `usize::from_str` error propagated by `?`,
`invalidExpr` = "Invalid Expression", `badNumber` = the
`Number::from_str` error, `unknownVar` = the `VarTable::get` error. -/
inductive PErr
  | fuelOut
  | panicked
  | emptyExpr
  | incomplete
  | unclosedParen
  | extraParen
  | invalidVarName
  | invalidAnswer
  | answerIndexErr
  | invalidExpr
  | badNumber
  | unknownVar
deriving DecidableEq, Repr

/-- Loop body of `match_outside_parenthesis`, carrying the current
position `i`, the parenthesis `nest` level, the sentinel-zero start
`idx` of the candidate match and the accumulated compare string `cmp`
(the source clears the compare state when an opening parenthesis
interrupts a candidate, only compares at nest level zero, and treats
index 0 as "not yet set"). -/
def matchGo (sub : List Char) : List Char → Nat → Int → Nat → List Char →
    Except PErr (Option Nat)
  | [], _, nest, _, _ =>
      if 0 < nest then .error .unclosedParen
      else if nest < 0 then .error .extraParen
      else .ok none
  | c :: rest, i, nest, idx, cmp =>
      let idx1 := if c = '(' ∧ idx ≠ 0 then 0 else idx
      let cmp1 := if c = '(' ∧ idx ≠ 0 then ([] : List Char) else cmp
      let nest1 := nest + (if c = '(' then 1 else 0) - (if c = ')' then 1 else 0)
      if nest1 = 0 then
        let cmp2 := cmp1 ++ [c]
        if cmp2.isPrefixOf sub then
          let idx2 := if idx1 = 0 then i else idx1
          if cmp2.length = sub.length then .ok (some idx2)
          else matchGo sub rest (i + 1) nest1 idx2 cmp2
        else matchGo sub rest (i + 1) nest1 0 []
      else matchGo sub rest (i + 1) nest1 idx1 cmp1

/-- `parser::match_outside_parenthesis`: the leftmost occurrence of
`sub` in `s` whose characters all sit at parenthesis depth zero, found
by the source's incremental compare-string scan; unbalanced
parentheses are an error when the scan reaches the end of the string. -/
def match_outside_parenthesis (s sub : List Char) : Except PErr (Option Nat) :=
  matchGo sub s 0 0 0 []

/-- One iteration of `parse`'s `for opcode in ORDER_OF_OPS` loop for a
given opcode: `.ok none` means "try the next operator" (not found, or
the unary-negative marker found away from position 0), `.ok (some i)`
means "split at `i`", `.error` is a bail.  `allowZero` is true for the
unary-negative marker and the answer operator, `isNegOp` only for the
former. -/
def stepOp (s sym : List Char) (allowZero isNegOp : Bool) : Except PErr (Option Nat) :=
  match match_outside_parenthesis s sym with
  | .error e => .error e
  | .ok none => .ok none
  | .ok (some i) =>
      if i + 1 = s.length ∨ (i = 0 ∧ allowZero = false) then .error .incomplete
      else if i ≠ 0 ∧ isNegOp = true then .ok none
      else .ok (some i)

/-- The characters of the `VAR_NAMECHECK_RE` class
`[@=\-\+/\*\^>&]`: a store target containing any of them is an
invalid variable name. -/
def isOpChar (c : Char) : Bool :=
  c = '@' ∨ c = '=' ∨ c = '-' ∨ c = '+' ∨ c = '/' ∨ c = '*' ∨ c = '^' ∨ c = '>' ∨ c = '&'

/-- The parser's internal unary-negative marker `NEG_SYMBOL` (`"\x26"`,
i.e. `&`). -/
def negSymbol : Char := '\x26'

/-- `parser::parse`, structurally recursive on fuel (every recursive
call of the source is on a strictly shorter string, so fuel
`length + 1` — what `parse` below passes — always suffices).  The nine
operator stages appear in the order of `ORDER_OF_OPS`:
`->  =  -  +  /  *  NEG  ^  @`, followed by the atom classification.
An empty string reaching the atom classification panics in the source
(`chars().next().unwrap()`), modelled by `.error .panicked`. -/
def parseF : Nat → List Char → Session → Except PErr Token
  | 0, _, _ => .error .fuelOut
  | f + 1, s, sess =>
    match stepOp s ['-', '>'] false false with
    | .error e => .error e
    | .ok (some i) =>
        let right := s.drop (i + 2)
        if right.any isOpChar then .error .invalidVarName
        else
          match parseF f (s.take i) sess with
          | .error e => .error e
          | .ok l => .ok (.store right l)
    | .ok none =>
    match stepOp s ['='] false false with
    | .error e => .error e
    | .ok (some i) =>
        match parseF f (s.take i) sess with
        | .error e => .error e
        | .ok l =>
            match parseF f (s.drop (i + 1)) sess with
            | .error e => .error e
            | .ok r => .ok (.equality l r)
    | .ok none =>
    match stepOp s ['-'] false false with
    | .error e => .error e
    | .ok (some i) =>
        match parseF f (s.take i) sess with
        | .error e => .error e
        | .ok l =>
            match parseF f (s.drop (i + 1)) sess with
            | .error e => .error e
            | .ok r => .ok (.subtract l r)
    | .ok none =>
    match stepOp s ['+'] false false with
    | .error e => .error e
    | .ok (some i) =>
        match parseF f (s.take i) sess with
        | .error e => .error e
        | .ok l =>
            match parseF f (s.drop (i + 1)) sess with
            | .error e => .error e
            | .ok r => .ok (.add l r)
    | .ok none =>
    match stepOp s ['/'] false false with
    | .error e => .error e
    | .ok (some i) =>
        match parseF f (s.take i) sess with
        | .error e => .error e
        | .ok l =>
            match parseF f (s.drop (i + 1)) sess with
            | .error e => .error e
            | .ok r => .ok (.divide l r)
    | .ok none =>
    match stepOp s ['*'] false false with
    | .error e => .error e
    | .ok (some i) =>
        match parseF f (s.take i) sess with
        | .error e => .error e
        | .ok l =>
            match parseF f (s.drop (i + 1)) sess with
            | .error e => .error e
            | .ok r => .ok (.multiply l r)
    | .ok none =>
    match stepOp s [negSymbol] true true with
    | .error e => .error e
    | .ok (some i) =>
        match parseF f (s.drop (i + 1)) sess with
        | .error e => .error e
        | .ok r => .ok (.negative r)
    | .ok none =>
    match stepOp s ['^'] false false with
    | .error e => .error e
    | .ok (some i) =>
        match parseF f (s.take i) sess with
        | .error e => .error e
        | .ok l =>
            match parseF f (s.drop (i + 1)) sess with
            | .error e => .error e
            | .ok r => .ok (.exponent l r)
    | .ok none =>
    match stepOp s ['@'] true false with
    | .error e => .error e
    | .ok (some i) =>
        let right := s.drop (i + 1)
        if right.isEmpty ∨ right.any (fun c => !c.isDigit) then .error .answerIndexErr
        else
          match sess.get_entry_inv_index (digitsToNat right) with
          | some entry => .ok (.answer entry.entry_uuid)
          | none => .error .invalidAnswer
    | .ok none =>
    match s with
    | [] => .error .panicked
    | c :: _ =>
        if c.isDigit then
          match parseDecimal s with
          | some q => .ok (.number ⟨.rat q⟩)
          | none => .error .badNumber
        else if c.isAlpha then
          match sess.vartable.get s with
          | .ok v => .ok (.variable' v.id v.tokens)
          | .error _ => .error .unknownVar
        else if c = '(' then
          match parseF f ((s.drop 1).dropLast) sess with
          | .error e => .error e
          | .ok inner => .ok (.parenthesis inner)
        else .error .invalidExpr

/-- `parser::parse` at the adequate fuel. -/
def parse (s : List Char) (sess : Session) : Except PErr Token :=
  parseF (s.length + 1) s sess

/-- The character class of `NEGATIVE_RE`'s first group
`[(=\-\+/\*\^]`: a minus following one of these (or at the start)
denotes a negative sign. -/
def negClass (c : Char) : Bool :=
  c = '(' ∨ c = '=' ∨ c = '-' ∨ c = '+' ∨ c = '/' ∨ c = '*' ∨ c = '^'

/-- Scanner state for the `NEGATIVE_RE.replace_all` rewrite: at the
string start `^` matches; after an unreplaced character that character
is available as the preceding-context group; after a replacement the
consumed characters are not available (regex matches do not overlap). -/
inductive RwSt
  | atStart
  | avail (c : Char)
  | consumed
deriving DecidableEq

/-- Left-to-right non-overlapping application of `NEGATIVE_RE`,
replacing each matched minus sign with the internal marker. -/
def negRewriteGo : RwSt → List Char → List Char
  | _, [] => []
  | st, c :: rest =>
      let canMatch :=
        match st with
        | .atStart => true
        | .avail p => negClass p
        | .consumed => false
      if c = '-' ∧ canMatch = true then negSymbol :: negRewriteGo .consumed rest
      else c :: negRewriteGo (.avail c) rest

/-- `NEGATIVE_RE.replace_all(s, "$a\x26")`. -/
def negRewrite (s : List Char) : List Char := negRewriteGo .atStart s

/-- `parser::parse_str`: strip whitespace, strip a `#` comment, reject
an empty result, rewrite negative signs, then parse. -/
def parse_str (s : List Char) (sess : Session) : Except PErr Token :=
  let cleaned := (s.filter (fun c => !c.isWhitespace)).takeWhile (fun c => c ≠ '#')
  if cleaned.length = 0 then .error .emptyExpr
  else parse (negRewrite cleaned) sess

/-- An empty test session: six decimal places (the default), no
variables, no history. -/
def sess0 : Session := ⟨6, ⟨[]⟩, [], []⟩

example : negRewrite "1+2*3-4/-5^(6+7)".toList = "1+2*3-4/&5^(6+7)".toList := by decide
example :
    parse_str "2+2".toList sess0 =
      .ok (.add (.number ⟨.rat ⟨2, 1⟩⟩) (.number ⟨.rat ⟨2, 1⟩⟩)) := by decide
example :
    parse_str "2-3-4".toList sess0 =
      .ok (.subtract (.number ⟨.rat ⟨2, 1⟩⟩)
        (.subtract (.number ⟨.rat ⟨3, 1⟩⟩) (.number ⟨.rat ⟨4, 1⟩⟩))) := by decide
example : parse_str "2->foo=bar".toList sess0 = .error .invalidVarName := by decide
example : parse_str "2^-3".toList sess0 =
    .ok (.exponent (.number ⟨.rat ⟨2, 1⟩⟩) (.negative (.number ⟨.rat ⟨3, 1⟩⟩))) := by decide

/-! ## The evaluator: `op_engine::simplify` and `op_engine::get_equality` -/

/-- Evaluator failures: `invalidUuid` is the `bail!("Invalid entry
uuid")` site, `panicked` a Rust panic (the `todo!()` in
`Session::get_entry_from_uuid` or an unwrap inside `Number`), `fuelOut`
the embedding's fuel artifact. -/
inductive EErr
  | fuelOut
  | panicked
  | invalidUuid
deriving DecidableEq, Repr

/-- `op_engine::simplify`, threading the session state through the
computation and returning it alongside the result so that the state at
the moment of a failure is observable (in Rust the caller's `&mut
Session` retains mutations made before an error or panic).  Fuel
decreases on every recursive call; the `Answer` case recurses on an
expression taken from the history, which no structural measure
bounds. -/
def simplifyF : Nat → Token → Session → (Except EErr Token) × Session
  | 0, _, sess => (.error .fuelOut, sess)
  | f + 1, t, sess =>
    match t with
    | .multiply l r =>
        match simplifyF f l sess with
        | (.error e, s1) => (.error e, s1)
        | (.ok lr, s1) =>
            match simplifyF f r s1 with
            | (.error e, s2) => (.error e, s2)
            | (.ok rr, s2) =>
                match lr, rr with
                | .number a, .number b => (.ok (.number (a.multiply b)), s2)
                | _, _ => (.ok (.multiply lr rr), s2)
    | .divide l r =>
        match simplifyF f l sess with
        | (.error e, s1) => (.error e, s1)
        | (.ok lr, s1) =>
            match simplifyF f r s1 with
            | (.error e, s2) => (.error e, s2)
            | (.ok rr, s2) =>
                match lr, rr with
                | .number a, .number b => (.ok (.number (a.divide b)), s2)
                | _, _ => (.ok (.divide lr rr), s2)
    | .add l r =>
        match simplifyF f l sess with
        | (.error e, s1) => (.error e, s1)
        | (.ok lr, s1) =>
            match simplifyF f r s1 with
            | (.error e, s2) => (.error e, s2)
            | (.ok rr, s2) =>
                match lr, rr with
                | .number a, .number b => (.ok (.number (a.add b)), s2)
                | _, _ => (.ok (.add lr rr), s2)
    | .subtract l r =>
        match simplifyF f l sess with
        | (.error e, s1) => (.error e, s1)
        | (.ok lr, s1) =>
            match simplifyF f r s1 with
            | (.error e, s2) => (.error e, s2)
            | (.ok rr, s2) =>
                match lr, rr with
                | .number a, .number b => (.ok (.number (a.subtract b)), s2)
                | _, _ => (.ok (.subtract lr rr), s2)
    | .exponent l r =>
        match simplifyF f l sess with
        | (.error e, s1) => (.error e, s1)
        | (.ok lr, s1) =>
            match simplifyF f r s1 with
            | (.error e, s2) => (.error e, s2)
            | (.ok rr, s2) =>
                match lr, rr with
                | .number a, .number b =>
                    match Number.exponent f a b s2.decimal_places with
                    | .ok n => (.ok (.number n), s2)
                    | .error .panic => (.error .panicked, s2)
                    | .error .fuel => (.error .fuelOut, s2)
                | _, _ => (.ok (.exponent lr rr), s2)
    | .equality l r =>
        match simplifyF f l sess with
        | (.error e, s1) => (.error e, s1)
        | (.ok lr, s1) =>
            match simplifyF f r s1 with
            | (.error e, s2) => (.error e, s2)
            | (.ok rr, s2) => (.ok (.boolean (lr = rr)), s2)
    | .parenthesis e => simplifyF f e sess
    | .answer uuid =>
        match sess.get_entry_from_uuid uuid with
        | .ok (some entry) => simplifyF f entry.without_equality sess
        | .ok none => (.error .invalidUuid, sess)
        | .error _ => (.error .panicked, sess)
    | .number _ => (.ok t, sess)
    | .boolean _ => (.ok t, sess)
    | .variable' _ v => (.ok v, sess)
    | .negative e =>
        match simplifyF f e sess with
        | (.error er, s1) => (.error er, s1)
        | (.ok r, s1) =>
            match r with
            | .number n => (.ok (.number n.negative), s1)
            | _ => (.ok (.negative r), s1)
    | .store id tks =>
        match simplifyF f tks sess with
        | (.error e, s1) => (.error e, s1)
        | (.ok st, s1) =>
            (.ok st, ⟨s1.decimal_places, s1.vartable.store ⟨id, st⟩, s1.entries,
              s1.previous_entries⟩)

/-- `op_engine::get_equality`: wrap the input and its simplification in
an `Equality` token. -/
def get_equality (fuel : Nat) (t : Token) (sess : Session) :
    (Except EErr Token) × Session :=
  match simplifyF fuel t sess with
  | (.ok r, s1) => (.ok (.equality t r), s1)
  | (.error e, s1) => (.error e, s1)

/-! ## Rendering: `Token::to_string` -/

/-- `Token::to_string`.  The `Answer` arm consults
`Session::get_inv_index_from_uuid`, whose previous-entries branch can
panic on an index underflow; since rendering must stay a total string
function here, that (claim-irrelevant) panic renders as a marker
string. -/
def Token.toStr (sess : Session) : Token → List Char
  | .exponent l r => l.toStr sess ++ "^".toList ++ r.toStr sess
  | .multiply l r => l.toStr sess ++ " * ".toList ++ r.toStr sess
  | .divide l r => l.toStr sess ++ " / ".toList ++ r.toStr sess
  | .add l r => l.toStr sess ++ " + ".toList ++ r.toStr sess
  | .subtract l r => l.toStr sess ++ " - ".toList ++ r.toStr sess
  | .equality l r => l.toStr sess ++ " = ".toList ++ r.toStr sess
  | .parenthesis e => "( ".toList ++ e.toStr sess ++ " )".toList
  | .answer uuid =>
      match sess.get_inv_index_from_uuid uuid with
      | .ok (some i) => '@' :: natToDigits (i + 1) i
      | .ok none => "@!".toList
      | .error _ => "PANIC".toList
  | .number n => n.to_string sess.decimal_places
  | .negative e => '-' :: e.toStr sess
  | .variable' id _ => id
  | .boolean b => if b then "true".toList else "false".toList
  | .store id e => e.toStr sess ++ " -> ".toList ++ id

/-- The end-to-end pipeline a caller runs for one input line: parse,
wrap with `get_equality`, render the equality.  `none` when parsing or
evaluation fails. -/
def pipeline (fuel : Nat) (input : List Char) (sess : Session) : Option (List Char) :=
  match parse_str input sess with
  | .error _ => none
  | .ok tok =>
      match get_equality fuel tok sess with
      | (.ok res, s1) => some (res.toStr s1)
      | (.error _, _) => none

set_option maxRecDepth 8000 in
example : pipeline 40 "2+2".toList sess0 = some "2 + 2 = 4".toList := by decide

/-! ## Claim theorems -/

set_option maxRecDepth 40000

/-- The session of the concrete scenario of claim C2: thirteen decimal
places, empty variable table and history. -/
def sessC2 : Session := ⟨13, ⟨[]⟩, [], []⟩

/-- C2: parsing the input `1+2*3-4 / -5^(6+7)` (written here with
spaces around the division to keep the comment well formed; the theorem
below uses the exact spacing-free input), wrapping it with `get_equality`
(which evaluates it), and rendering the resulting `Equality` token at
thirteen decimal places yields exactly
`"1 + 2 * 3 - 4 / -5^( 6 + 7 ) = 7.0000000032768"`, with no
precision-loss ellipsis appended. -/
theorem c2_concrete_render :
    pipeline 60 "1+2*3-4/-5^(6+7)".toList sessC2 =
      some "1 + 2 * 3 - 4 / -5^( 6 + 7 ) = 7.0000000032768".toList := by
  decide

/-- The session of claim C4's scenario: one history entry with uuid 5
holding the equality `2 + 2 = 4`. -/
def sessC4 : Session :=
  ⟨6, ⟨[]⟩,
    [⟨5, .equality (.add (.number ⟨.rat ⟨2, 1⟩⟩) (.number ⟨.rat ⟨2, 1⟩⟩))
        (.number ⟨.rat ⟨4, 1⟩⟩), "2 + 2 = 4".toList⟩], []⟩

/-- C4: at an answer uuid that resolves to no history entry the
evaluator does not return an error — `Session::get_entry_from_uuid`
hits `todo!()` and panics, so the `bail!("Invalid entry uuid")` branch
of `simplify` is unreachable.  At a uuid that does resolve, `simplify`
recursively simplifies the entry's expression with its outer equality
wrapper stripped (here the stored `2 + 2 = 4` yields `4`, the
simplification of the stripped left side `2 + 2`). -/
theorem c4_answer_resolution :
    sessC4.get_entry_from_uuid 99 = .error () ∧
    (simplifyF 5 (.answer 99) sessC4).1 = .error .panicked ∧
    (simplifyF 5 (.answer 5) sessC4).1 = .ok (.number ⟨.rat ⟨4, 1⟩⟩) := by
  decide

/-- C5: `Number::root` does not terminate normally on the non-negative
input `0`: the first Newton step computes `(0^2 − 0) / (2 · 0) = 0/0`,
which is `NaN`, and the subsequent `round_denom` unwraps the `None`
denominator of `NaN` and panics — the computation aborts instead of
returning a value. -/
theorem c5_root_zero_panics :
    Number.root 5 ⟨.rat ⟨0, 1⟩⟩ ⟨.rat ⟨2, 1⟩⟩ 1 = .error .panic := by
  decide

/-- C7 counterexample: dividing the `Number` zero by the exact rational
zero yields the `NaN` sentinel, not the `Infinity` sentinel the claim
asserts for every `Number`. -/
theorem c7_zero_div_zero_nan :
    Number.divide ⟨.rat ⟨0, 1⟩⟩ ⟨.rat ⟨0, 1⟩⟩ = ⟨.nan⟩ ∧
    (match (Number.divide ⟨.rat ⟨0, 1⟩⟩ ⟨.rat ⟨0, 1⟩⟩).fraction with
      | .inf _ => true
      | _ => false) = false := by
  decide

/-- C7 amended: dividing any *nonzero* rational `Number` by the exact
rational zero returns the Infinity sentinel (signed by the dividend);
`Number::divide` is a total function — zero divisors produce the
`Infinity`/`NaN` sentinels, never an error or a panic. -/
theorem c7_divide_by_zero_amended (q : Q) (h : q.num ≠ 0) :
    Number.divide ⟨.rat q⟩ ⟨.rat ⟨0, 1⟩⟩ = ⟨.inf (decide (q.num < 0))⟩ := by
  simp only [Number.divide, BigFraction.div]
  simp [h]

/-- Witness for `c7_divide_by_zero_amended` at the dividend `1`. -/
theorem c7_divide_by_zero_witness :
    Number.divide ⟨.rat ⟨1, 1⟩⟩ ⟨.rat ⟨0, 1⟩⟩ = ⟨.inf false⟩ := by
  have h := c7_divide_by_zero_amended ⟨1, 1⟩ (by decide)
  simpa using h

/-- C10: raising a non-sentinel `Number` to the exponent zero returns
the base itself rather than `1` (the multiplication loop of
`Number::pow` only runs while its counter exceeds one), and the
exponent one likewise returns the base. -/
theorem c10_pow_zero_returns_base (q : Q) (prec fuel : Nat) :
    Number.exponent (fuel + 1) ⟨.rat q⟩ ⟨.rat ⟨0, 1⟩⟩ prec = .ok ⟨.rat q⟩ ∧
    Number.exponent (fuel + 1) ⟨.rat q⟩ ⟨.rat ⟨1, 1⟩⟩ prec = .ok ⟨.rat q⟩ :=
  ⟨rfl, rfl⟩

/-! ## Claims C1 and C9: the operator-splitting discipline of `parse` -/

/-- An operator not found outside parentheses makes `parse` move on to
the next operator of `ORDER_OF_OPS`. -/
theorem stepOp_none (s sym : List Char) (az ng : Bool)
    (h : match_outside_parenthesis s sym = .ok none) :
    stepOp s sym az ng = .ok none := by
  simp [stepOp, h]

/-- A binary operator found at an interior position splits there. -/
theorem stepOp_split (s sym : List Char) (i : Nat)
    (h : match_outside_parenthesis s sym = .ok (some i))
    (h0 : i ≠ 0) (h1 : i + 1 ≠ s.length) :
    stepOp s sym false false = .ok (some i) := by
  simp [stepOp, h, h0, h1]

/-- The unary-negative marker found at an interior position that is not
the last character makes `parse` continue with the next operator (the
source's `continue`). -/
theorem stepOp_neg_skip (s : List Char) (j : Nat)
    (h : match_outside_parenthesis s [negSymbol] = .ok (some j))
    (h0 : j ≠ 0) (h1 : j + 1 ≠ s.length) :
    stepOp s [negSymbol] true true = .ok none := by
  simp [stepOp, h, h0, h1]

/-- C1 counterexample: on the whitespace-free string `2^&3` (`&` is the
parser's unary-negative marker, the form `2^-3` takes after the
negative-sign rewrite), the first operator found in the fixed order
`-> = - + / * NEG ^ @` is the unary-negative marker, at position 2 —
yet the root of the parsed tree is the *exponent* node, not a node for
that first-found operator: a marker found away from position 0 is
skipped, contradicting the claim's "first operator found becomes the
root". -/
theorem c1_first_found_not_root :
    match_outside_parenthesis "2^&3".toList ['-', '>'] = .ok none ∧
    match_outside_parenthesis "2^&3".toList ['='] = .ok none ∧
    match_outside_parenthesis "2^&3".toList ['-'] = .ok none ∧
    match_outside_parenthesis "2^&3".toList ['+'] = .ok none ∧
    match_outside_parenthesis "2^&3".toList ['/'] = .ok none ∧
    match_outside_parenthesis "2^&3".toList ['*'] = .ok none ∧
    match_outside_parenthesis "2^&3".toList [negSymbol] = .ok (some 2) ∧
    parse "2^&3".toList sess0 =
      .ok (.exponent (.number ⟨.rat ⟨2, 1⟩⟩) (.negative (.number ⟨.rat ⟨3, 1⟩⟩))) ∧
    (match parse "2^&3".toList sess0 with
      | .ok (.negative _) => true
      | _ => false) = false := by
  decide

/-- The split shape of a binary operator: left and right substrings
parsed recursively, becoming the children of the operator's node (the
left parse's error takes precedence, as in the source). -/
def splitsAt (f : Nat) (s : List Char) (sess : Session) (i len : Nat)
    (mk : Token → Token → Token) : Except PErr Token :=
  match parseF f (s.take i) sess with
  | .error e => .error e
  | .ok l =>
      match parseF f (s.drop (i + len)) sess with
      | .error e => .error e
      | .ok r => .ok (mk l r)

/-- C1 amended: scanning the whitespace-free input left to right while
skipping spans inside balanced parentheses, `parse` splits at the first
occurrence of the first operator found in the fixed order
`-> = - + / * NEG ^ @` — *except* that the unary-negative marker is
split only at position 0 and is otherwise skipped in favour of the
remaining operators.  For the binary operators `=`, `-`, `+`, `/`, `*`,
`^`, found at an interior, non-final position, the substrings left and
right of the operator are parsed recursively and become the children of
that operator's node.  Consequently chains of equal-precedence
operators group to the right: `2-3-4` parses to
`Subtract(2, Subtract(3, 4))`. -/
theorem c1_reverse_precedence_split :
    (∀ f s sess i,
      match_outside_parenthesis s ['='] = .ok (some i) → i ≠ 0 → i + 1 ≠ s.length →
      match_outside_parenthesis s ['-', '>'] = .ok none →
      parseF (f + 1) s sess = splitsAt f s sess i 1 .equality) ∧
    (∀ f s sess i,
      match_outside_parenthesis s ['-'] = .ok (some i) → i ≠ 0 → i + 1 ≠ s.length →
      match_outside_parenthesis s ['-', '>'] = .ok none →
      match_outside_parenthesis s ['='] = .ok none →
      parseF (f + 1) s sess = splitsAt f s sess i 1 .subtract) ∧
    (∀ f s sess i,
      match_outside_parenthesis s ['+'] = .ok (some i) → i ≠ 0 → i + 1 ≠ s.length →
      match_outside_parenthesis s ['-', '>'] = .ok none →
      match_outside_parenthesis s ['='] = .ok none →
      match_outside_parenthesis s ['-'] = .ok none →
      parseF (f + 1) s sess = splitsAt f s sess i 1 .add) ∧
    (∀ f s sess i,
      match_outside_parenthesis s ['/'] = .ok (some i) → i ≠ 0 → i + 1 ≠ s.length →
      match_outside_parenthesis s ['-', '>'] = .ok none →
      match_outside_parenthesis s ['='] = .ok none →
      match_outside_parenthesis s ['-'] = .ok none →
      match_outside_parenthesis s ['+'] = .ok none →
      parseF (f + 1) s sess = splitsAt f s sess i 1 .divide) ∧
    (∀ f s sess i,
      match_outside_parenthesis s ['*'] = .ok (some i) → i ≠ 0 → i + 1 ≠ s.length →
      match_outside_parenthesis s ['-', '>'] = .ok none →
      match_outside_parenthesis s ['='] = .ok none →
      match_outside_parenthesis s ['-'] = .ok none →
      match_outside_parenthesis s ['+'] = .ok none →
      match_outside_parenthesis s ['/'] = .ok none →
      parseF (f + 1) s sess = splitsAt f s sess i 1 .multiply) ∧
    (∀ f s sess i,
      match_outside_parenthesis s ['^'] = .ok (some i) → i ≠ 0 → i + 1 ≠ s.length →
      match_outside_parenthesis s ['-', '>'] = .ok none →
      match_outside_parenthesis s ['='] = .ok none →
      match_outside_parenthesis s ['-'] = .ok none →
      match_outside_parenthesis s ['+'] = .ok none →
      match_outside_parenthesis s ['/'] = .ok none →
      match_outside_parenthesis s ['*'] = .ok none →
      (match_outside_parenthesis s [negSymbol] = .ok none ∨
        ∃ j, match_outside_parenthesis s [negSymbol] = .ok (some j) ∧ j ≠ 0 ∧
          j + 1 ≠ s.length) →
      parseF (f + 1) s sess = splitsAt f s sess i 1 .exponent) ∧
    parse "2-3-4".toList sess0 =
      .ok (.subtract (.number ⟨.rat ⟨2, 1⟩⟩)
        (.subtract (.number ⟨.rat ⟨3, 1⟩⟩) (.number ⟨.rat ⟨4, 1⟩⟩))) := by
  refine ⟨?_, ?_, ?_, ?_, ?_, ?_, by decide⟩
  · intro f s sess i h h0 h1 hstore
    simp only [parseF, stepOp_none _ _ _ _ hstore, stepOp_split _ _ _ h h0 h1, splitsAt]
  · intro f s sess i h h0 h1 hstore heq
    simp only [parseF, stepOp_none _ _ _ _ hstore, stepOp_none _ _ _ _ heq,
      stepOp_split _ _ _ h h0 h1, splitsAt]
  · intro f s sess i h h0 h1 hstore heq hsub
    simp only [parseF, stepOp_none _ _ _ _ hstore, stepOp_none _ _ _ _ heq,
      stepOp_none _ _ _ _ hsub, stepOp_split _ _ _ h h0 h1, splitsAt]
  · intro f s sess i h h0 h1 hstore heq hsub hadd
    simp only [parseF, stepOp_none _ _ _ _ hstore, stepOp_none _ _ _ _ heq,
      stepOp_none _ _ _ _ hsub, stepOp_none _ _ _ _ hadd,
      stepOp_split _ _ _ h h0 h1, splitsAt]
  · intro f s sess i h h0 h1 hstore heq hsub hadd hdiv
    simp only [parseF, stepOp_none _ _ _ _ hstore, stepOp_none _ _ _ _ heq,
      stepOp_none _ _ _ _ hsub, stepOp_none _ _ _ _ hadd, stepOp_none _ _ _ _ hdiv,
      stepOp_split _ _ _ h h0 h1, splitsAt]
  · intro f s sess i h h0 h1 hstore heq hsub hadd hdiv hmul hneg
    rcases hneg with hneg | ⟨j, hj, hj0, hj1⟩
    · simp only [parseF, stepOp_none _ _ _ _ hstore, stepOp_none _ _ _ _ heq,
        stepOp_none _ _ _ _ hsub, stepOp_none _ _ _ _ hadd, stepOp_none _ _ _ _ hdiv,
        stepOp_none _ _ _ _ hmul, stepOp_none _ _ _ _ hneg,
        stepOp_split _ _ _ h h0 h1, splitsAt]
    · simp only [parseF, stepOp_none _ _ _ _ hstore, stepOp_none _ _ _ _ heq,
        stepOp_none _ _ _ _ hsub, stepOp_none _ _ _ _ hadd, stepOp_none _ _ _ _ hdiv,
        stepOp_none _ _ _ _ hmul, stepOp_neg_skip _ _ hj hj0 hj1,
        stepOp_split _ _ _ h h0 h1, splitsAt]

/-- Witness for `c1_reverse_precedence_split`: the subtraction conjunct
at the concrete string `2-3`, split at position 1. -/
theorem c1_reverse_precedence_split_witness :
    parseF 4 "2-3".toList sess0 = splitsAt 3 "2-3".toList sess0 1 1 .subtract := by
  have h := c1_reverse_precedence_split.2.1 3 "2-3".toList sess0 1
    (by decide) (by decide) (by decide) (by decide) (by decide)
  exact h

/-- C9 counterexample: in the input `->=` the store operator's
right-hand operand is `=`, which contains an operator character — but
`parse` fails with the *incomplete-expression* error, not with the
invalid-identifier error the claim promises for every such input.  (The
scanner treats index 0 as "not yet set", so a store operator that
begins the string is reported at the position of its second character;
the split then takes the right-hand side to be the empty string after
position 3, the identifier check passes vacuously, and parsing the
left-hand side `-` fails as incomplete.) -/
theorem c9_store_at_zero_incomplete :
    "->=".toList = '-' :: '>' :: "=".toList ∧
    ("=".toList.any isOpChar) = true ∧
    match_outside_parenthesis "->=".toList ['-', '>'] = .ok (some 1) ∧
    parse "->=".toList sess0 = .error .incomplete ∧
    (match parse "->=".toList sess0 with
      | .error .invalidVarName => true
      | _ => false) = false := by
  decide

/-- C9 amended: whenever the store operator is found outside
parentheses at a nonzero position and the substring right of it
contains any operator character, `parse` fails with the
invalid-identifier parse error — before any evaluation and before
either operand is parsed (when the store operator is found at position
0, parse instead fails with the incomplete-expression error).  In
particular `2->foo=bar` fails with the identifier error. -/
theorem c9_store_target_identifier :
    (∀ (s : List Char) (sess : Session) (i : Nat),
      match_outside_parenthesis s ['-', '>'] = .ok (some i) → i ≠ 0 →
      (s.drop (i + 2)).any isOpChar = true →
      parse s sess = .error .invalidVarName) ∧
    parse_str "2->foo=bar".toList sess0 = .error .invalidVarName := by
  refine ⟨?_, by decide⟩
  intro s sess i h h0 hop
  have hne : s.drop (i + 2) ≠ [] := by
    intro hnil
    rw [hnil] at hop
    simp at hop
  have hlen : i + 2 < s.length := by
    by_contra hc
    exact hne (List.drop_eq_nil_of_le (by omega))
  have h1 : i + 1 ≠ s.length := by omega
  have hstep : stepOp s ['-', '>'] false false = .ok (some i) :=
    stepOp_split _ _ _ h h0 h1
  unfold parse
  have : s.length = (s.length - 1) + 1 := by omega
  rw [this]
  simp only [parseF, hstep, hop]
  simp [hop]

/-- Witness for `c9_store_target_identifier` at the input `2->x=`,
whose store target `x=` contains the operator character `=`. -/
theorem c9_store_target_identifier_witness :
    parse "2->x=".toList sess0 = .error .invalidVarName := by
  exact c9_store_target_identifier.1 "2->x=".toList sess0 1 (by decide) (by decide)
    (by decide)

/-! ## Claim C3: symbol-table state across failing evaluations -/

/-- Discriminator for the one error `simplify` can *return* at source
level (the `bail!("Invalid entry uuid")` site). -/
def isInvalidUuidRes : Except EErr Token → Bool
  | .error .invalidUuid => true
  | _ => false

/-- `Session::get_entry_from_uuid` never returns `Ok(None)`: the
not-found path hits `todo!()` (a panic) instead. -/
theorem get_entry_from_uuid_ne_ok_none (s : Session) (uuid : Nat) :
    s.get_entry_from_uuid uuid ≠ .ok none := by
  intro h
  cases hf : s.entries.find? (fun e => e.entry_uuid = uuid) <;>
    cases hp : s.previous_entries.find? (fun e => e.entry_uuid = uuid) <;>
    simp [Session.get_entry_from_uuid, hf, hp] at h

/-- Transport of the no-invalid-uuid property along an evaluation
equation. -/
theorem no_invalid_of_eq {f : Nat} {t : Token} {sess : Session}
    {r : Except EErr Token} {s' : Session}
    (h : simplifyF f t sess = (r, s'))
    (ih1 : isInvalidUuidRes (simplifyF f t sess).1 = false) :
    isInvalidUuidRes r = false := by
  rw [h] at ih1
  exact ih1

/-- `simplify` never returns the invalid-uuid error: its only two
source-level error sites are dead (`get_entry_from_uuid` panics instead
of returning `None`, and `VarTable::store` always succeeds), so every
failing evaluation is a panic (or the embedding's fuel artifact). -/
theorem simplify_no_invalid_uuid (fuel : Nat) :
    ∀ t sess, isInvalidUuidRes (simplifyF fuel t sess).1 = false := by
  induction fuel with
  | zero => intro t sess; rfl
  | succ f ih =>
    intro t sess
    cases t <;> simp only [simplifyF] <;> (repeat' split) <;>
      first
      | rfl
      | exact ih _ _
      | (rename_i heq; exact no_invalid_of_eq heq (ih _ _))
      | (rename_i heq; exact absurd heq (get_entry_from_uuid_ne_ok_none _ _))

/-- A `Store` node whose child evaluation fails performs no table
write: the result state is exactly the child evaluation's state. -/
theorem simplify_store_child_fail (f : Nat) (id : List Char) (ch : Token)
    (sess : Session) (e : EErr) (h : (simplifyF f ch sess).1 = .error e) :
    simplifyF (f + 1) (.store id ch) sess = (.error e, (simplifyF f ch sess).2) := by
  simp only [simplifyF]
  rcases h1 : simplifyF f ch sess with ⟨r1, s1⟩
  rw [h1] at h
  simp only at h
  subst h
  rfl

/-- C3 counterexample: the evaluation of
`Add(Store("x", 2), Answer(99))` against an empty session fails (by
panic — the unresolvable answer hits `todo!()`), yet the symbol table
after the call holds one binding where it held none before: the inner
`Store` of `x` was already applied when the failure occurred, so a
failed evaluation does *not* leave the table untouched. -/
theorem c3_failed_eval_mutates_table :
    (simplifyF 10 (.add (.store "x".toList (.number ⟨.rat ⟨2, 1⟩⟩)) (.answer 99))
        sess0).1 = .error .panicked ∧
    (simplifyF 10 (.add (.store "x".toList (.number ⟨.rat ⟨2, 1⟩⟩)) (.answer 99))
        sess0).2.vartable.vars.length = 1 ∧
    sess0.vartable.vars.length = 0 := by
  decide

/-- C3 amended: in this snapshot `simplify` never *returns* an error —
its two source-level error paths are dead (`Session::get_entry_from_uuid`
panics via `todo!()` instead of returning `None`, and `VarTable::store`
always succeeds) — so a failed evaluation is a panic (or the
embedding's fuel artifact); and a `Store` node whose own child
evaluation fails is not applied (the result state is exactly the child
evaluation's state, with no write for that node).  A failing evaluation
may still leave mutations of *earlier, completed* `Store` siblings in
the table, as the counterexample shows. -/
theorem c3_no_error_return_and_store_discipline :
    (∀ fuel t sess, isInvalidUuidRes (simplifyF fuel t sess).1 = false) ∧
    (∀ f id ch sess e, (simplifyF f ch sess).1 = .error e →
      simplifyF (f + 1) (.store id ch) sess = (.error e, (simplifyF f ch sess).2)) :=
  ⟨fun fuel => simplify_no_invalid_uuid fuel,
   fun f id ch sess e h => simplify_store_child_fail f id ch sess e h⟩

/-- Witness for `c3_no_error_return_and_store_discipline`: a store of
`x` whose child is an unresolvable answer fails without touching the
empty table. -/
theorem c3_no_error_return_witness :
    simplifyF 4 (.store "x".toList (.answer 99)) sess0 =
      (.error .panicked, (simplifyF 3 (.answer 99) sess0).2) := by
  exact c3_no_error_return_and_store_discipline.2 3 "x".toList (.answer 99) sess0
    .panicked (by decide)

/-! ## Claim C8: the variable table's sorted-unique invariant -/

/-- Characters with equal code points are equal. -/
theorem char_toNat_inj {c d : Char} (h : c.toNat = d.toNat) : c = d :=
  Char.eq_of_val_eq (UInt32.toNat.inj h)

/-- `strCmp` is reflexive into `.eq`. -/
theorem strCmp_self (a : List Char) : strCmp a a = .eq := by
  induction a with
  | nil => rfl
  | cons c rest ih => simp [strCmp, ih]

/-- `strCmp` compares equal exactly on equal strings. -/
theorem strCmp_eq_iff (a b : List Char) : strCmp a b = .eq ↔ a = b := by
  constructor
  · intro h
    induction a generalizing b with
    | nil => cases b with
      | nil => rfl
      | cons d bs => simp [strCmp] at h
    | cons c rest ih =>
        cases b with
        | nil => simp [strCmp] at h
        | cons d bs =>
            simp only [strCmp] at h
            by_cases h1 : c.toNat < d.toNat
            · simp [h1] at h
            · by_cases h2 : d.toNat < c.toNat
              · simp [h1, h2] at h
              · have hcd : c = d := char_toNat_inj (by omega)
                rw [if_neg h1, if_neg h2] at h
                rw [hcd, ih bs h]
  · intro h
    rw [h]
    exact strCmp_self b

/-- Swapping the arguments of `strCmp` swaps `.gt` and `.lt`. -/
theorem strCmp_gt_iff (a b : List Char) : strCmp a b = .gt ↔ strCmp b a = .lt := by
  induction a generalizing b with
  | nil => cases b <;> simp [strCmp]
  | cons c rest ih =>
      cases b with
      | nil => simp [strCmp]
      | cons d bs =>
          simp only [strCmp]
          by_cases h1 : c.toNat < d.toNat
          · have h2 : ¬ d.toNat < c.toNat := by omega
            simp [h1, h2]
          · by_cases h2 : d.toNat < c.toNat
            · simp [h1, h2]
            · simp [h1, h2, ih bs]

/-- Transitivity of the `.lt` outcome of `strCmp`. -/
theorem strCmp_lt_trans {a b c : List Char} (h1 : strCmp a b = .lt)
    (h2 : strCmp b c = .lt) : strCmp a c = .lt := by
  induction a generalizing b c with
  | nil =>
      cases b with
      | nil => simp [strCmp] at h1
      | cons d bs =>
          cases c with
          | nil => simp [strCmp] at h2
          | cons e cs => simp [strCmp]
  | cons x xs ih =>
      cases b with
      | nil => simp [strCmp] at h1
      | cons y ys =>
          cases c with
          | nil => simp [strCmp] at h2
          | cons z zs =>
              simp only [strCmp] at h1 h2 ⊢
              by_cases hxy : x.toNat < y.toNat <;> by_cases hyz : y.toNat < z.toNat
              · have : x.toNat < z.toNat := by omega
                simp [this]
              · by_cases hzy : z.toNat < y.toNat
                · simp [hxy, hyz, hzy] at h2
                · have hy : y = z := char_toNat_inj (by omega)
                  subst hy
                  simp [hxy]
              · by_cases hyx : y.toNat < x.toNat
                · simp [hxy, hyx] at h1
                · have hx : x = y := char_toNat_inj (by omega)
                  subst hx
                  simp [hyz]
              · by_cases hyx : y.toNat < x.toNat
                · simp [hxy, hyx] at h1
                · by_cases hzy : z.toNat < y.toNat
                  · simp [hyz, hzy] at h2
                  · have hx : x = y := char_toNat_inj (by omega)
                    subst hx
                    have hy : x = z := char_toNat_inj (by omega)
                    subst hy
                    rw [if_neg hxy, if_neg hyx] at h1 h2 ⊢
                    exact ih h1 h2

/-- The strict identifier order on table entries. -/
def varLt (a b : Variable) : Prop := strCmp a.id b.id = .lt

instance : DecidableRel varLt := fun a b =>
  inferInstanceAs (Decidable (strCmp a.id b.id = .lt))

/-- The table invariant of the claim: entries strictly sorted by
identifier (which also forbids duplicate identifiers). -/
def VarTable.Sorted (t : VarTable) : Prop := t.vars.Pairwise varLt

instance (t : VarTable) : Decidable t.Sorted :=
  inferInstanceAs (Decidable (t.vars.Pairwise varLt))

/-- Unfolding `searchVar` past a smaller head element. -/
theorem searchVar_cons_lt {u : Variable} {rest : List Variable} {id : List Char}
    (h : strCmp u.id id = .lt) :
    searchVar (u :: rest) id =
      (match searchVar rest id with
        | .inl i => .inl (i + 1)
        | .inr i => .inr (i + 1)) := by
  simp [searchVar, h]

/-- `store` on the empty table appends the single binding. -/
theorem store_nil (v : Variable) : VarTable.store ⟨[]⟩ v = ⟨[v]⟩ := rfl

/-- `store` replacing an equal head. -/
theorem store_cons_eq {u : Variable} {rest : List Variable} {v : Variable}
    (h : strCmp u.id v.id = .eq) :
    VarTable.store ⟨u :: rest⟩ v = ⟨v :: rest⟩ := by
  simp [VarTable.store, searchVar, h]

/-- `store` inserting before a greater head. -/
theorem store_cons_gt {u : Variable} {rest : List Variable} {v : Variable}
    (h : strCmp u.id v.id = .gt) :
    VarTable.store ⟨u :: rest⟩ v = ⟨v :: u :: rest⟩ := by
  simp [VarTable.store, searchVar, h]

/-- `store` walking past a smaller head. -/
theorem store_cons_lt {u : Variable} {rest : List Variable} {v : Variable}
    (h : strCmp u.id v.id = .lt) :
    VarTable.store ⟨u :: rest⟩ v = ⟨u :: (VarTable.store ⟨rest⟩ v).vars⟩ := by
  cases hs : searchVar rest v.id <;>
    simp [VarTable.store, searchVar_cons_lt h, hs]

/-- Every element of a stored table is an old element or the new
binding. -/
theorem mem_store {x v : Variable} :
    ∀ {l : List Variable}, x ∈ (VarTable.store ⟨l⟩ v).vars → x ∈ l ∨ x = v := by
  intro l
  induction l with
  | nil =>
      intro h
      rw [store_nil] at h
      simp at h
      right
      exact h
  | cons u rest ih =>
      intro h
      cases hc : strCmp u.id v.id with
      | eq =>
          rw [store_cons_eq hc] at h
          rcases List.mem_cons.mp h with h' | h'
          · right; exact h'
          · left; exact List.mem_cons_of_mem _ h'
      | gt =>
          rw [store_cons_gt hc] at h
          rcases List.mem_cons.mp h with h' | h'
          · right; exact h'
          · left; exact h'
      | lt =>
          rw [store_cons_lt hc] at h
          rcases List.mem_cons.mp h with h' | h'
          · left; rw [h']; exact List.mem_cons_self _ _
          · rcases ih h' with h'' | h''
            · left; exact List.mem_cons_of_mem _ h''
            · right; exact h''

/-- `store` preserves the sorted-unique invariant. -/
theorem sorted_store {l : List Variable} (v : Variable)
    (hs : VarTable.Sorted ⟨l⟩) : (VarTable.store ⟨l⟩ v).Sorted := by
  induction l with
  | nil =>
      rw [store_nil]
      exact List.pairwise_singleton _ _
  | cons u rest ih =>
      have hs' : List.Pairwise varLt (u :: rest) := hs
      rw [List.pairwise_cons] at hs'
      obtain ⟨hu, hrest⟩ := hs'
      cases hc : strCmp u.id v.id with
      | eq =>
          rw [store_cons_eq hc]
          show List.Pairwise varLt (v :: rest)
          refine List.Pairwise.cons (fun w hw => ?_) hrest
          have huw := hu w hw
          unfold varLt at huw ⊢
          rwa [← (strCmp_eq_iff u.id v.id).mp hc]
      | gt =>
          rw [store_cons_gt hc]
          show List.Pairwise varLt (v :: u :: rest)
          have hvu : varLt v u := (strCmp_gt_iff u.id v.id).mp hc
          refine List.Pairwise.cons (fun w hw => ?_)
            (List.Pairwise.cons hu hrest)
          rcases List.mem_cons.mp hw with h' | h'
          · rw [h']; exact hvu
          · exact strCmp_lt_trans hvu (hu w h')
      | lt =>
          rw [store_cons_lt hc]
          show List.Pairwise varLt (u :: (VarTable.store ⟨rest⟩ v).vars)
          refine List.Pairwise.cons (fun w hw => ?_) (ih hrest)
          rcases mem_store hw with h' | h'
          · exact hu w h'
          · rw [h']; exact hc

/-- `get` walks past a smaller head. -/
theorem get_cons_lt {u : Variable} {tail : List Variable} {id : List Char}
    (h : strCmp u.id id = .lt) :
    VarTable.get ⟨u :: tail⟩ id = VarTable.get ⟨tail⟩ id := by
  cases hs : searchVar tail id <;>
    simp [VarTable.get, searchVar_cons_lt h, hs]

/-- After `store(v)`, `get(v.id)` retrieves exactly `v`. -/
theorem get_store_self {l : List Variable} (v : Variable)
    (hs : VarTable.Sorted ⟨l⟩) : (VarTable.store ⟨l⟩ v).get v.id = .ok v := by
  induction l with
  | nil =>
      rw [store_nil]
      simp [VarTable.get, searchVar, strCmp_self]
  | cons u rest ih =>
      have hs' : List.Pairwise varLt (u :: rest) := hs
      rw [List.pairwise_cons] at hs'
      obtain ⟨hu, hrest⟩ := hs'
      cases hc : strCmp u.id v.id with
      | eq =>
          rw [store_cons_eq hc]
          simp [VarTable.get, searchVar, strCmp_self]
      | gt =>
          rw [store_cons_gt hc]
          simp [VarTable.get, searchVar, strCmp_self]
      | lt =>
          rw [store_cons_lt hc, get_cons_lt hc]
          exact ih hrest

/-- A successful `get` means the search ended in an exact match. -/
theorem searchVar_inl_of_get {t : VarTable} {id : List Char} {v : Variable}
    (h : t.get id = .ok v) : ∃ i, searchVar t.vars id = .inl i := by
  cases hs : searchVar t.vars id with
  | inl i => exact ⟨i, rfl⟩
  | inr i =>
      rw [VarTable.get, hs] at h
      simp at h

/-- Re-storing under the same identifier replaces in place: the length
is unchanged. -/
theorem store_replace_length {l : List Variable} (v1 v2 : Variable)
    (hs : VarTable.Sorted ⟨l⟩) (h12 : v2.id = v1.id) :
    ((VarTable.store ⟨l⟩ v1).store v2).vars.length =
      (VarTable.store ⟨l⟩ v1).vars.length := by
  obtain ⟨i, hi⟩ := searchVar_inl_of_get (get_store_self v1 hs)
  rw [VarTable.store, h12, hi]
  simp

/-- A successful `add` behaves exactly like `store` (both insert at the
sorted position when the identifier is fresh). -/
theorem add_ok_eq_store {t t' : VarTable} {v : Variable}
    (h : t.add v = .ok t') : t' = t.store v := by
  rw [VarTable.add] at h
  rw [VarTable.store]
  cases hs : searchVar t.vars v.id <;> rw [hs] at h <;> simp at h
  rw [← h]

/-- A successful `remove` erases the found index. -/
theorem remove_ok_eq_erase {t t' : VarTable} {id : List Char}
    (h : t.remove id = .ok t') : ∃ i, t' = ⟨t.vars.eraseIdx i⟩ := by
  rw [VarTable.remove] at h
  cases hs : searchVar t.vars id <;> rw [hs] at h <;> simp at h
  exact ⟨_, h.symm⟩

/-- `merge` preserves the sorted-unique invariant (it stores the other
table's bindings one by one). -/
theorem sorted_merge (other : VarTable) :
    ∀ t : VarTable, t.Sorted → (t.merge other).Sorted := by
  rcases other with ⟨ovars⟩
  show ∀ t, t.Sorted → (List.foldl VarTable.store t ovars).Sorted
  induction ovars with
  | nil => intro t ht; exact ht
  | cons v vs ih =>
      intro t ht
      rcases t with ⟨l⟩
      exact ih _ (sorted_store v ht)

/-- C8: every table operation preserves the invariant that entries are
strictly sorted by identifier (hence no two entries share an
identifier): `store` always, `add` and `remove` whenever they succeed,
and `merge` for any other table.  Consequently after `store(v)` a
`get(v.id)` returns exactly the binding `v`, and a second store under
the same identifier replaces in place, leaving the length unchanged. -/
theorem c8_vartable_invariants (l : List Variable) (v v1 v2 : Variable)
    (id : List Char) (other t' t'' : VarTable)
    (hs : VarTable.Sorted ⟨l⟩) :
    (VarTable.store ⟨l⟩ v).Sorted ∧
    (VarTable.add ⟨l⟩ v = .ok t' → t'.Sorted) ∧
    (VarTable.remove ⟨l⟩ id = .ok t'' → t''.Sorted) ∧
    (VarTable.merge ⟨l⟩ other).Sorted ∧
    (VarTable.store ⟨l⟩ v).get v.id = .ok v ∧
    (v2.id = v1.id →
      ((VarTable.store ⟨l⟩ v1).store v2).vars.length =
        (VarTable.store ⟨l⟩ v1).vars.length) := by
  refine ⟨sorted_store v hs, ?_, ?_, sorted_merge other _ hs,
    get_store_self v hs, fun h12 => store_replace_length v1 v2 hs h12⟩
  · intro h
    rw [add_ok_eq_store h]
    exact sorted_store v hs
  · intro h
    obtain ⟨i, hi⟩ := remove_ok_eq_erase h
    rw [hi]
    exact List.Pairwise.sublist (List.eraseIdx_sublist _ _) hs

/-- Witness for `c8_vartable_invariants`: storing `b` into the sorted
one-entry table holding `a` and reading it back. -/
theorem c8_vartable_invariants_witness :
    (VarTable.store ⟨[⟨"a".toList, .boolean true⟩]⟩
        ⟨"b".toList, .boolean false⟩).get "b".toList =
      .ok ⟨"b".toList, .boolean false⟩ := by
  have h := c8_vartable_invariants [⟨"a".toList, .boolean true⟩]
    ⟨"b".toList, .boolean false⟩ ⟨"b".toList, .boolean false⟩
    ⟨"b".toList, .boolean false⟩ "a".toList ⟨[]⟩ ⟨[]⟩ ⟨[]⟩ (by decide)
  exact h.2.2.2.2.1

/-! ## Claim C6: decimal-literal round trip -/

/-- Value of a digit-string fold started from an arbitrary
accumulator. -/
theorem digitsToNat_foldl (cs : List Char) :
    ∀ a : Nat, List.foldl (fun a c => 10 * a + (c.toNat - 48)) a cs =
      a * 10 ^ cs.length + digitsToNat cs := by
  induction cs with
  | nil => intro a; simp [digitsToNat]
  | cons c rest ih =>
      intro a
      have h1 : digitsToNat (c :: rest) =
          (c.toNat - 48) * 10 ^ rest.length + digitsToNat rest := by
        show List.foldl _ (10 * 0 + (c.toNat - 48)) rest = _
        rw [ih]
        ring_nf
      calc List.foldl (fun a c => 10 * a + (c.toNat - 48)) a (c :: rest)
          = List.foldl (fun a c => 10 * a + (c.toNat - 48))
              (10 * a + (c.toNat - 48)) rest := rfl
        _ = (10 * a + (c.toNat - 48)) * 10 ^ rest.length + digitsToNat rest := ih _
        _ = a * 10 ^ (c :: rest).length + digitsToNat (c :: rest) := by
            rw [h1, List.length_cons]
            ring

/-- Positional value of the head digit. -/
theorem digitsToNat_cons (c : Char) (cs : List Char) :
    digitsToNat (c :: cs) = (c.toNat - 48) * 10 ^ cs.length + digitsToNat cs := by
  show List.foldl _ (10 * 0 + (c.toNat - 48)) cs = _
  rw [digitsToNat_foldl]
  ring_nf

/-- Value of a trailing digit. -/
theorem digitsToNat_snoc (cs : List Char) (c : Char) :
    digitsToNat (cs ++ [c]) = 10 * digitsToNat cs + (c.toNat - 48) := by
  show List.foldl _ 0 (cs ++ [c]) = _
  rw [List.foldl_append]
  rfl

/-- Code-point bounds of a digit character. -/
theorem isDigit_toNat {c : Char} (h : c.isDigit = true) :
    48 ≤ c.toNat ∧ c.toNat ≤ 57 := by
  simp only [Char.isDigit, decide_eq_true_eq, Bool.and_eq_true] at h
  obtain ⟨h1, h2⟩ := h
  exact ⟨h1, h2⟩

/-- A digit string is bounded by the corresponding power of ten. -/
theorem digitsToNat_lt (cs : List Char) (h : cs.all Char.isDigit = true) :
    digitsToNat cs < 10 ^ cs.length := by
  induction cs with
  | nil => simp [digitsToNat]
  | cons c rest ih =>
      rw [List.all_cons, Bool.and_eq_true] at h
      have hc := isDigit_toNat h.1
      have hr := ih h.2
      rw [digitsToNat_cons]
      calc (c.toNat - 48) * 10 ^ rest.length + digitsToNat rest
          < (c.toNat - 48) * 10 ^ rest.length + 10 ^ rest.length := by omega
        _ = (c.toNat - 48 + 1) * 10 ^ rest.length := by ring
        _ ≤ 10 * 10 ^ rest.length := by
            have hcv : c.toNat - 48 + 1 ≤ 10 := by omega
            exact Nat.mul_le_mul_right _ hcv
        _ = 10 ^ (rest.length + 1) := by ring
        _ = 10 ^ (c :: rest).length := by simp

/-- A digit string whose last digit is not `'0'` has nonzero value. -/
theorem digitsToNat_ne_zero (cs : List Char) (hne : cs ≠ [])
    (hd : cs.all Char.isDigit = true) (hl : cs.getLast? ≠ some '0') :
    digitsToNat cs ≠ 0 := by
  induction cs using List.reverseRecOn with
  | nil => exact absurd rfl hne
  | append_singleton ds c _ =>
      rw [digitsToNat_snoc]
      rw [List.all_append, Bool.and_eq_true] at hd
      have hcd : c.isDigit = true := by simpa using hd.2
      have hc := isDigit_toNat hcd
      have hlast : c ≠ '0' := by
        intro hc0
        apply hl
        rw [hc0, List.getLast?_concat]
      have h48 : c.toNat ≠ 48 := by
        intro h48
        exact hlast (char_toNat_inj (c := c) (d := '0') (by simpa using h48))
      omega

/-- A digit string with nonzero head digit has positive value. -/
theorem digitsToNat_pos {c : Char} {cs : List Char} (hd : c.isDigit = true)
    (h0 : c ≠ '0') : 0 < digitsToNat (c :: cs) := by
  rw [digitsToNat_cons]
  have hc := isDigit_toNat hd
  have h48 : c.toNat ≠ 48 := by
    intro h48
    exact h0 (char_toNat_inj (c := c) (d := '0') (by simpa using h48))
  have hcv : 1 ≤ c.toNat - 48 := by omega
  have hp : 0 < 10 ^ cs.length := Nat.pos_pow_of_pos _ (by omega)
  calc 0 < 1 * 10 ^ cs.length := by omega
    _ ≤ (c.toNat - 48) * 10 ^ cs.length := Nat.mul_le_mul_right _ hcv
    _ ≤ (c.toNat - 48) * 10 ^ cs.length + digitsToNat cs := Nat.le_add_right _ _

/-- A valid digit turns back into itself through `digitChar`. -/
theorem digitChar_roundtrip {c : Char} (h : c.isDigit = true) :
    digitChar (c.toNat - 48) = c := by
  have hc := isDigit_toNat h
  have : 48 + (c.toNat - 48) = c.toNat := by omega
  rw [digitChar, this]
  exact Char.ofNat_toNat c

/-- Rendering the value of a canonical digit string (no leading zero
unless the string is exactly `"0"`) reproduces the string, for any
sufficient fuel. -/
theorem natToDigits_exact :
    ∀ (ip : List Char), ip ≠ [] → ip.all Char.isDigit = true →
      (ip.head? = some '0' → ip = ['0']) →
      ∀ f, digitsToNat ip < f → natToDigits f (digitsToNat ip) = ip := by
  intro ip
  induction ip using List.reverseRecOn with
  | nil => intro h; exact absurd rfl h
  | append_singleton ds c ih =>
      intro _ hd hh f hf
      rw [List.all_append, Bool.and_eq_true] at hd
      have hcd : c.isDigit = true := by simpa using hd.2
      have hcb := isDigit_toNat hcd
      rw [digitsToNat_snoc] at hf ⊢
      cases ds with
      | nil =>
          have h0 : digitsToNat ([] : List Char) = 0 := rfl
          rw [h0] at hf ⊢
          match f, hf with
          | f + 1, _ =>
              rw [natToDigits]
              rw [if_pos (by omega : 10 * 0 + (c.toNat - 48) < 10)]
              have harg : 10 * 0 + (c.toNat - 48) = c.toNat - 48 := by omega
              rw [harg, digitChar_roundtrip hcd]
              rfl
      | cons d ds' =>
          have hdd : (d :: ds').all Char.isDigit = true := hd.1
          have hhead : d ≠ '0' := by
            intro h0
            have := hh (by rw [h0]; rfl)
            simp at this
          have hpos : 0 < digitsToNat (d :: ds') := by
            rw [List.all_cons, Bool.and_eq_true] at hdd
            exact digitsToNat_pos hdd.1 hhead
          match f, hf with
          | f + 1, hf =>
              rw [natToDigits]
              rw [if_neg (by omega)]
              have hdiv : (10 * digitsToNat (d :: ds') + (c.toNat - 48)) / 10 =
                  digitsToNat (d :: ds') := by omega
              have hmod : (10 * digitsToNat (d :: ds') + (c.toNat - 48)) % 10 =
                  c.toNat - 48 := by omega
              rw [hdiv, hmod, digitChar_roundtrip hcd]
              have hre : (d :: ds').head? = some '0' → d :: ds' = ['0'] := by
                intro h0
                simp at h0
                exact absurd h0 hhead
              rw [ih (by simp) hdd hre f (by omega)]

/-- Equal cross products give equal integer quotients. -/
theorem nat_div_cross {a b c d : Nat} (hb : 0 < b) (hd : 0 < d)
    (h : a * d = c * b) : a / b = c / d := by
  calc a / b = a * d / (b * d) := (Nat.mul_div_mul_right a b hd).symm
    _ = c * b / (b * d) := by rw [h]
    _ = c * b / (d * b) := by rw [Nat.mul_comm b d]
    _ = c / d := Nat.mul_div_mul_right c d hb

/-- Equal cross products give cross-equal remainders. -/
theorem nat_mod_cross {a b c d : Nat} (hb : 0 < b) (hd : 0 < d)
    (h : a * d = c * b) : (a % b) * d = (c % d) * b := by
  have h1 : a / b = c / d := nat_div_cross hb hd h
  have ha := Nat.div_add_mod a b
  have hc := Nat.div_add_mod c d
  have key : (b * (a / b) + a % b) * d = (d * (c / d) + c % d) * b := by
    rw [ha, hc]
    exact h
  have expand : b * (a / b) * d + (a % b) * d = d * (c / d) * b + (c % d) * b := by
    calc b * (a / b) * d + (a % b) * d = (b * (a / b) + a % b) * d := by ring
      _ = (d * (c / d) + c % d) * b := key
      _ = d * (c / d) * b + (c % d) * b := by ring
  have same : b * (a / b) * d = d * (c / d) * b := by
    rw [h1]
    ring
  omega

/-- Quotient of a digit-decomposed value. -/
theorem nat_mul_add_div {a x B : Nat} (hB : 0 < B) (hx : x < B) :
    (a * B + x) / B = a := by
  rw [Nat.add_comm, Nat.add_mul_div_right _ _ hB, Nat.div_eq_of_lt hx, Nat.zero_add]

/-- Remainder of a digit-decomposed value. -/
theorem nat_mul_add_mod {a x B : Nat} (hx : x < B) :
    (a * B + x) % B = x := by
  rw [Nat.add_comm, Nat.add_mul_mod_self_right, Nat.mod_eq_of_lt hx]

/-- `fracDigits` of a zero remainder is empty. -/
theorem fracDigits_zero (p den : Nat) : fracDigits p 0 den = [] := by
  cases p <;> simp [fracDigits]

/-- The tail of a cons keeps the last element when nonempty. -/
theorem getLast?_cons_ne {c : Char} {rest : List Char} (h : rest ≠ []) :
    (c :: rest).getLast? = rest.getLast? := by
  cases rest with
  | nil => exact absurd rfl h
  | cons d ds => exact List.getLast?_cons_cons

/-- The fractional-digit loop reproduces a canonical digit string (last
digit nonzero): if `r / den` equals `F / 10^k` as a rational — stated
by cross multiplication — with `F` the value of the `k` digits, the
loop emits exactly those digits and then stops on a zero remainder. -/
theorem fracDigits_exact :
    ∀ (fp : List Char), fp.all Char.isDigit = true →
      (fp ≠ [] → fp.getLast? ≠ some '0') →
      ∀ p, fp.length ≤ p → ∀ r den, 0 < den →
        r * 10 ^ fp.length = digitsToNat fp * den →
        fracDigits p r den = fp := by
  intro fp
  induction fp with
  | nil =>
      intro _ _ p _ r den hden hcross
      have hr : r = 0 := by
        have h1 : r * 1 = 0 * den := by simpa [digitsToNat] using hcross
        omega
      rw [hr, fracDigits_zero]
  | cons c rest ih =>
      intro hd hl p hp r den hden hcross
      rw [List.all_cons, Bool.and_eq_true] at hd
      have hcb := isDigit_toNat hd.1
      have hF := digitsToNat_cons c rest
      have hFne : digitsToNat (c :: rest) ≠ 0 :=
        digitsToNat_ne_zero _ (by simp)
          (by rw [List.all_cons, Bool.and_eq_true]; exact ⟨hd.1, hd.2⟩)
          (hl (by simp))
      have hpow : (0:Nat) < 10 ^ (c :: rest).length := Nat.pos_pow_of_pos _ (by omega)
      have hrne : r ≠ 0 := by
        intro hr0
        rw [hr0] at hcross
        simp at hcross
        rcases hcross with hc | hc
        · exact hFne hc
        · omega
      match p, hp with
      | p + 1, hp =>
          rw [fracDigits, if_neg hrne]
          have hrestlt : digitsToNat rest < 10 ^ rest.length := digitsToNat_lt rest hd.2
          have hcross10 : (10 * r) * 10 ^ (c :: rest).length =
              (10 * digitsToNat (c :: rest)) * den := by
            calc (10 * r) * 10 ^ (c :: rest).length
                = 10 * (r * 10 ^ (c :: rest).length) := by ring
              _ = 10 * (digitsToNat (c :: rest) * den) := by rw [hcross]
              _ = (10 * digitsToNat (c :: rest)) * den := by ring
          have hsplit : 10 * digitsToNat (c :: rest) =
              (c.toNat - 48) * 10 ^ (c :: rest).length + 10 * digitsToNat rest := by
            rw [hF]
            simp only [List.length_cons, pow_succ]
            ring
          have hsmall : 10 * digitsToNat rest < 10 ^ (c :: rest).length := by
            simp only [List.length_cons, pow_succ]
            omega
          have hdiv10 : (10 * digitsToNat (c :: rest)) / 10 ^ (c :: rest).length =
              c.toNat - 48 := by
            rw [hsplit]
            exact nat_mul_add_div hpow hsmall
          have hmod10 : (10 * digitsToNat (c :: rest)) % 10 ^ (c :: rest).length =
              10 * digitsToNat rest := by
            rw [hsplit]
            exact nat_mul_add_mod hsmall
          have hdigit : 10 * r / den = c.toNat - 48 := by
            rw [nat_div_cross hden hpow hcross10, hdiv10]
          have hmodcross := nat_mod_cross hden hpow hcross10
          rw [hmod10] at hmodcross
          -- cancel the factor ten to get the invariant for the tail
          have hinv : (10 * r % den) * 10 ^ rest.length = digitsToNat rest * den := by
            have h10 : ((10 * r % den) * 10 ^ rest.length) * 10 =
                (digitsToNat rest * den) * 10 := by
              calc ((10 * r % den) * 10 ^ rest.length) * 10
                  = (10 * r % den) * 10 ^ (c :: rest).length := by
                    simp only [List.length_cons, pow_succ]
                    ring
                _ = 10 * digitsToNat rest * den := hmodcross
                _ = (digitsToNat rest * den) * 10 := by ring
            exact Nat.eq_of_mul_eq_mul_right (by omega) h10
          have hltail : rest ≠ [] → rest.getLast? ≠ some '0' := by
            intro hne
            rw [← getLast?_cons_ne hne]
            exact hl (by simp)
          rw [hdigit, digitChar_roundtrip hd.1,
            ih hd.2 hltail p (by simpa using hp) (10 * r % den) den hden hinv]

/-- `takeWhile isDigit` of a digit block followed by a non-digit (or
nothing) is the digit block. -/
theorem takeWhile_digits (ds rest : List Char) (hds : ds.all Char.isDigit = true)
    (hrest : ∀ c, rest.head? = some c → c.isDigit = false) :
    (ds ++ rest).takeWhile Char.isDigit = ds := by
  induction ds with
  | nil =>
      cases rest with
      | nil => rfl
      | cons c cs =>
          simp only [List.nil_append, List.takeWhile_cons]
          rw [hrest c rfl]
          simp
  | cons d ds' ih =>
      rw [List.all_cons, Bool.and_eq_true] at hds
      simp only [List.cons_append, List.takeWhile_cons]
      rw [hds.1]
      rw [ih hds.2]
      simp

/-- The assembled decimal-literal string of the claim's grammar:
optional minus sign, integer digits, optional dot and fraction
digits. -/
def decimalLit (neg : Bool) (ip fp : List Char) : List Char :=
  (if neg then ['-'] else []) ++ ip ++ (if fp.isEmpty then [] else '.' :: fp)

/-- `parsePosDecimal` of an assembled unsigned literal yields the
reduced fraction `(I·10^k + F) / 10^k`. -/
theorem parsePosDecimal_literal (ip fp : List Char) (hip1 : ip ≠ [])
    (hip2 : ip.all Char.isDigit = true) (hfp : fp.all Char.isDigit = true) :
    parsePosDecimal (ip ++ (if fp.isEmpty then [] else '.' :: fp)) =
      some (mkQ ((digitsToNat ip * 10 ^ fp.length + digitsToNat fp : Nat) : Int)
        (10 ^ fp.length)) := by
  cases fp with
  | nil =>
      simp only [List.isEmpty_nil, if_pos, List.append_nil]
      rw [parsePosDecimal]
      have ht : ip.takeWhile Char.isDigit = ip := by
        have h := takeWhile_digits ip [] hip2 (by intro c hc; simp at hc)
        simpa using h
      rw [ht, List.drop_length]
      rw [if_neg (by simpa [List.isEmpty_iff] using hip1)]
      have hval : digitsToNat ip * 10 ^ ([] : List Char).length +
          digitsToNat ([] : List Char) = digitsToNat ip := by
        simp [digitsToNat]
      rw [hval]
      rfl
  | cons c fpt =>
      have hne : (if (c :: fpt).isEmpty = true then ([] : List Char)
          else '.' :: c :: fpt) = '.' :: c :: fpt := rfl
      rw [hne]
      rw [parsePosDecimal]
      have ht : (ip ++ '.' :: c :: fpt).takeWhile Char.isDigit = ip :=
        takeWhile_digits ip ('.' :: c :: fpt) hip2
          (by intro x hx; simp at hx; rw [← hx]; rfl)
      rw [ht, List.drop_left]
      rw [if_neg (by simpa [List.isEmpty_iff] using hip1)]
      simp [hfp]

/-- `parseDecimal` without a leading minus falls through to the
unsigned parse. -/
theorem parseDecimal_not_neg {c : Char} {tail : List Char} (h : c ≠ '-') :
    parseDecimal (c :: tail) = parsePosDecimal (c :: tail) := by
  unfold parseDecimal
  split
  · next rest heq =>
      rw [List.cons_eq_cons] at heq
      exact absurd heq.1 h
  · rfl

/-- `parseDecimal` with a leading minus negates the unsigned parse. -/
theorem parseDecimal_neg (tail : List Char) :
    parseDecimal ('-' :: tail) = (parsePosDecimal tail).map (fun q => ⟨-q.num, q.den⟩) :=
  rfl

/-- Normal form of `mkQ` on a natural numerator. -/
theorem mkQ_natCast (N D : Nat) (hD : D ≠ 0) :
    mkQ (N : Int) D = ⟨((N / Nat.gcd N D : Nat) : Int), D / Nat.gcd N D⟩ := by
  simp only [mkQ, if_neg hD, Int.natAbs_ofNat]
  rw [if_neg (by exact_mod_cast Int.not_lt.mpr (Int.natCast_nonneg N))]

/-- Normal form of `mkQ` on a negated natural numerator. -/
theorem mkQ_neg_natCast (N D : Nat) (hD : D ≠ 0) :
    mkQ (-(N : Int)) D = ⟨-((N / Nat.gcd N D : Nat) : Int), D / Nat.gcd N D⟩ := by
  rcases Nat.eq_zero_or_pos N with h0 | hpos
  · subst h0
    simp only [mkQ, if_neg hD]
    norm_num
  · simp only [mkQ, if_neg hD, Int.natAbs_neg, Int.natAbs_ofNat]
    rw [if_pos (by exact_mod_cast Int.neg_neg_of_pos (by exact_mod_cast hpos))]

/-- Unreduced numerator of an unsigned decimal literal with integer
digits `ip` and fractional digits `fp`. -/
def litNum (ip fp : List Char) : Nat :=
  digitsToNat ip * 10 ^ fp.length + digitsToNat fp

/-- Unreduced denominator of an unsigned decimal literal. -/
def litDen (fp : List Char) : Nat := 10 ^ fp.length

/-- The common factor removed by `mkQ`. -/
def litG (ip fp : List Char) : Nat := Nat.gcd (litNum ip fp) (litDen fp)

/-- Reduced numerator magnitude of the literal. -/
def redNum (ip fp : List Char) : Nat := litNum ip fp / litG ip fp

/-- Reduced denominator of the literal. -/
def redDen (ip fp : List Char) : Nat := litDen fp / litG ip fp

theorem litDen_pos (fp : List Char) : 0 < litDen fp :=
  Nat.pos_pow_of_pos _ (by omega)

theorem litG_pos (ip fp : List Char) : 0 < litG ip fp :=
  Nat.gcd_pos_of_pos_right _ (litDen_pos fp)

theorem redDen_pos (ip fp : List Char) : 0 < redDen ip fp :=
  Nat.div_pos (Nat.le_of_dvd (litDen_pos fp) (Nat.gcd_dvd_right _ _)) (litG_pos ip fp)

/-- Dividing out a common factor preserves the quotient. -/
theorem div_div_of_dvd_eq {g n' d' N D : Nat} (hg : 0 < g)
    (hn : N = g * n') (hd : D = g * d') : N / g / (D / g) = N / D := by
  subst hn; subst hd
  rw [Nat.mul_div_cancel_left n' hg, Nat.mul_div_cancel_left d' hg,
    Nat.mul_div_mul_left n' d' hg]

/-- Quotient through the gcd equals the plain quotient. -/
theorem div_gcd_div (N D : Nat) (hD : 0 < D) :
    N / Nat.gcd N D / (D / Nat.gcd N D) = N / D := by
  obtain ⟨n', hn'⟩ := Nat.gcd_dvd_left N D
  obtain ⟨d', hd'⟩ := Nat.gcd_dvd_right N D
  exact div_div_of_dvd_eq (Nat.gcd_pos_of_pos_right _ hD) hn' hd'

/-- Cross-multiplied remainder identity after dividing out a common
factor. -/
theorem mod_cross_of_dvd_eq {g n' d' N D : Nat} (hg : 0 < g)
    (hn : N = g * n') (hd : D = g * d') :
    N / g % (D / g) * D = N % D * (D / g) := by
  subst hn; subst hd
  rw [Nat.mul_div_cancel_left n' hg, Nat.mul_div_cancel_left d' hg,
    Nat.mul_mod_mul_left]
  ring

/-- Cross-multiplied remainder identity through the gcd. -/
theorem mod_gcd_cross (N D : Nat) (hD : 0 < D) :
    N / Nat.gcd N D % (D / Nat.gcd N D) * D = N % D * (D / Nat.gcd N D) := by
  obtain ⟨n', hn'⟩ := Nat.gcd_dvd_left N D
  obtain ⟨d', hd'⟩ := Nat.gcd_dvd_right N D
  exact mod_cross_of_dvd_eq (Nat.gcd_pos_of_pos_right _ hD) hn' hd'

/-- Rendering a rational with a nonnegative numerator: no sign, then
integer digits, then the fractional block. -/
theorem bigFractionRender_nonneg (m d prec : Nat) :
    bigFractionRender (.rat ⟨(m : Int), d⟩) prec =
      natToDigits (m / d + 1) (m / d) ++
        (if (fracDigits prec (m % d) d).isEmpty then []
         else '.' :: fracDigits prec (m % d) d) := by
  simp only [bigFractionRender, Int.natAbs_ofNat]
  rw [if_neg (Int.not_lt.mpr (Int.natCast_nonneg m))]
  simp

/-- Rendering a rational with a negative numerator: minus sign, then
the magnitude rendering. -/
theorem bigFractionRender_negnum (m d prec : Nat) (hm : 0 < m) :
    bigFractionRender (.rat ⟨-(m : Int), d⟩) prec =
      '-' :: (natToDigits (m / d + 1) (m / d) ++
        (if (fracDigits prec (m % d) d).isEmpty then []
         else '.' :: fracDigits prec (m % d) d)) := by
  simp only [bigFractionRender, Int.natAbs_neg, Int.natAbs_ofNat]
  rw [if_pos (Int.neg_neg_of_pos (by exact_mod_cast hm))]
  simp

/-- The reduced fraction of a canonical literal renders back to the
literal's digits: integer part, then dot and fractional part when the
latter is nonempty. -/
theorem canonical_render_core (ip fp : List Char) (prec : Nat)
    (hip1 : ip ≠ []) (hip2 : ip.all Char.isDigit = true)
    (hip3 : ip.head? = some '0' → ip = ['0'])
    (hfp1 : fp.all Char.isDigit = true)
    (hfp2 : fp ≠ [] → fp.getLast? ≠ some '0')
    (hprec : fp.length ≤ prec) :
    natToDigits (redNum ip fp / redDen ip fp + 1) (redNum ip fp / redDen ip fp) ++
      (if (fracDigits prec (redNum ip fp % redDen ip fp) (redDen ip fp)).isEmpty then []
       else '.' :: fracDigits prec (redNum ip fp % redDen ip fp) (redDen ip fp)) =
    ip ++ (if fp.isEmpty then [] else '.' :: fp) := by
  have hFlt : digitsToNat fp < litDen fp := digitsToNat_lt fp hfp1
  have hIdiv : redNum ip fp / redDen ip fp = digitsToNat ip := by
    have h1 : redNum ip fp / redDen ip fp = litNum ip fp / litDen fp :=
      div_gcd_div (litNum ip fp) (litDen fp) (litDen_pos fp)
    rw [h1]
    exact nat_mul_add_div (litDen_pos fp) hFlt
  have hfr : fracDigits prec (redNum ip fp % redDen ip fp) (redDen ip fp) = fp := by
    apply fracDigits_exact fp hfp1 hfp2 prec hprec _ _ (redDen_pos ip fp)
    have h2 := mod_gcd_cross (litNum ip fp) (litDen fp) (litDen_pos fp)
    have h3 : litNum ip fp % litDen fp = digitsToNat fp := nat_mul_add_mod hFlt
    rw [h3] at h2
    exact h2
  have hipr : natToDigits (redNum ip fp / redDen ip fp + 1)
      (redNum ip fp / redDen ip fp) = ip := by
    rw [hIdiv]
    exact natToDigits_exact ip hip1 hip2 hip3 _ (Nat.lt_succ_self _)
  rw [hipr, hfr]

/-- A canonical literal that is not the bare zero has a positive
numerator. -/
theorem litNum_pos (ip fp : List Char)
    (hip1 : ip ≠ []) (hip2 : ip.all Char.isDigit = true)
    (hip3 : ip.head? = some '0' → ip = ['0'])
    (hfp1 : fp.all Char.isDigit = true)
    (hfp2 : fp ≠ [] → fp.getLast? ≠ some '0')
    (hne : ¬(ip = ['0'] ∧ fp = [])) :
    0 < litNum ip fp := by
  by_cases hfp : fp = []
  · subst hfp
    cases ip with
    | nil => exact absurd rfl hip1
    | cons c rest =>
        have hc0 : c ≠ '0' := by
          intro h
          exact hne ⟨hip3 (by rw [h]; rfl), rfl⟩
        rw [List.all_cons, Bool.and_eq_true] at hip2
        have hpos : 0 < digitsToNat (c :: rest) := digitsToNat_pos hip2.1 hc0
        have heq : litNum (c :: rest) [] = digitsToNat (c :: rest) := by
          simp [litNum, digitsToNat]
        omega
  · have hF : digitsToNat fp ≠ 0 := digitsToNat_ne_zero fp hfp hfp1 (hfp2 hfp)
    show 0 < digitsToNat ip * 10 ^ fp.length + digitsToNat fp
    omega

theorem redNum_pos (ip fp : List Char) (h : 0 < litNum ip fp) : 0 < redNum ip fp :=
  Nat.div_pos (Nat.le_of_dvd h (Nat.gcd_dvd_left _ _)) (litG_pos ip fp)

/-- When reparsing the rendered base string recovers the exact value,
`Number::to_string` returns the base string with no ellipsis. -/
theorem to_string_of_reparse_eq (q : Q) (prec : Nat)
    (h : parseDecimal (bigFractionRender (.rat q) prec) = some q) :
    Number.to_string ⟨.rat q⟩ prec = bigFractionRender (.rat q) prec := by
  show (match parseDecimal (bigFractionRender (.rat q) prec) with
    | some q2 => if q2 = q then bigFractionRender (.rat q) prec
        else bigFractionRender (.rat q) prec ++ "...".toList
    | none => "PANIC".toList) = bigFractionRender (.rat q) prec
  rw [h]
  simp

/-- C6 counterexample: the string 1.10 is a valid decimal literal and
2 is at least its number of decimal digits, yet parsing it and
rendering the result at precision 2 yields 1.1, not the original
string: the renderer never emits trailing fractional zeros, so the
round-trip drops them. -/
theorem c6_trailing_zero_not_roundtrip :
    (parseDecimal "1.10".toList).map (fun q => Number.to_string ⟨.rat q⟩ 2) =
      some "1.1".toList ∧
    (parseDecimal "1.10".toList).map (fun q => Number.to_string ⟨.rat q⟩ 2) ≠
      some "1.10".toList :=
  ⟨by decide, by decide⟩

/-- C6 (amended): for a canonical decimal literal — nonempty all-digit
integer part with no leading zero unless it is exactly 0, all-digit
fractional part with no trailing zero, and no negative zero — parsing
the literal and rendering the parsed number at any precision at least
the fractional length reproduces the literal exactly, with no
ellipsis appended. -/
theorem c6_canonical_roundtrip (neg : Bool) (ip fp : List Char) (prec : Nat)
    (hip1 : ip ≠ []) (hip2 : ip.all Char.isDigit = true)
    (hip3 : ip.head? = some '0' → ip = ['0'])
    (hfp1 : fp.all Char.isDigit = true)
    (hfp2 : fp ≠ [] → fp.getLast? ≠ some '0')
    (hneg : neg = true → ¬(ip = ['0'] ∧ fp = []))
    (hprec : fp.length ≤ prec) :
    (parseDecimal (decimalLit neg ip fp)).map
        (fun q => Number.to_string ⟨.rat q⟩ prec) =
      some (decimalLit neg ip fp) := by
  obtain ⟨c, rest, hic⟩ : ∃ c rest, ip = c :: rest := by
    cases ip with
    | nil => exact absurd rfl hip1
    | cons c rest => exact ⟨c, rest, rfl⟩
  have hcd : c.isDigit = true := by
    have h2 := hip2
    rw [hic, List.all_cons, Bool.and_eq_true] at h2
    exact h2.1
  have hcne : c ≠ '-' := by
    intro h
    rw [h] at hcd
    exact absurd hcd (by decide)
  have hpos0 : parsePosDecimal (ip ++ (if fp.isEmpty then [] else '.' :: fp)) =
      some (mkQ ((litNum ip fp : Nat) : Int) (litDen fp)) :=
    parsePosDecimal_literal ip fp hip1 hip2 hfp1
  have hDne : litDen fp ≠ 0 := by
    have := litDen_pos fp
    omega
  have hqeq : mkQ ((litNum ip fp : Nat) : Int) (litDen fp) =
      ⟨((redNum ip fp : Nat) : Int), redDen ip fp⟩ := mkQ_natCast _ _ hDne
  have hcore := canonical_render_core ip fp prec hip1 hip2 hip3 hfp1 hfp2 hprec
  cases neg with
  | false =>
      have hlit : decimalLit false ip fp =
          ip ++ (if fp.isEmpty then [] else '.' :: fp) := by
        simp [decimalLit]
      have hrender : bigFractionRender
          (.rat ⟨((redNum ip fp : Nat) : Int), redDen ip fp⟩) prec =
          ip ++ (if fp.isEmpty then [] else '.' :: fp) := by
        rw [bigFractionRender_nonneg]
        exact hcore
      have hreparse : parseDecimal (ip ++ (if fp.isEmpty then [] else '.' :: fp)) =
          some ⟨((redNum ip fp : Nat) : Int), redDen ip fp⟩ := by
        rw [hic, List.cons_append, parseDecimal_not_neg hcne, ← List.cons_append,
          ← hic, hpos0, hqeq]
      have hts : Number.to_string ⟨.rat ⟨((redNum ip fp : Nat) : Int), redDen ip fp⟩⟩ prec =
          ip ++ (if fp.isEmpty then [] else '.' :: fp) :=
        (to_string_of_reparse_eq _ prec (by rw [hrender]; exact hreparse)).trans hrender
      rw [hlit, hreparse]
      exact congrArg some hts
  | true =>
      have hNpos : 0 < litNum ip fp :=
        litNum_pos ip fp hip1 hip2 hip3 hfp1 hfp2 (hneg rfl)
      have hrpos : 0 < redNum ip fp := redNum_pos ip fp hNpos
      have hlit : decimalLit true ip fp =
          '-' :: (ip ++ (if fp.isEmpty then [] else '.' :: fp)) := by
        simp [decimalLit]
      have hrender : bigFractionRender
          (.rat ⟨-((redNum ip fp : Nat) : Int), redDen ip fp⟩) prec =
          '-' :: (ip ++ (if fp.isEmpty then [] else '.' :: fp)) := by
        rw [bigFractionRender_negnum _ _ _ hrpos, hcore]
      have hreparse : parseDecimal ('-' :: (ip ++ (if fp.isEmpty then [] else '.' :: fp))) =
          some ⟨-((redNum ip fp : Nat) : Int), redDen ip fp⟩ := by
        rw [parseDecimal_neg, hpos0, hqeq]
        rfl
      have hts : Number.to_string ⟨.rat ⟨-((redNum ip fp : Nat) : Int), redDen ip fp⟩⟩ prec =
          '-' :: (ip ++ (if fp.isEmpty then [] else '.' :: fp)) :=
        (to_string_of_reparse_eq _ prec (by rw [hrender]; exact hreparse)).trans hrender
      rw [hlit, hreparse]
      exact congrArg some hts

/-- Witness for the amended round-trip at the literal -1.5 and
precision 2. -/
theorem c6_canonical_roundtrip_witness :
    (parseDecimal (decimalLit true ['1'] ['5'])).map
        (fun q => Number.to_string ⟨.rat q⟩ 2) =
      some (decimalLit true ['1'] ['5']) :=
  c6_canonical_roundtrip true ['1'] ['5'] 2 (by decide) (by decide) (by decide)
    (by decide) (by decide) (by decide) (by decide)
